import Mathlib

/-!
Verification of the simulation core of the `world-sim` repository.

The TypeScript sources are shallowly embedded: pure functions become Lean
functions, class state becomes explicit records, mutation becomes state
passing, and event emission is returned as an explicit event list.
JavaScript numbers are modelled as `ℚ` (or `ℕ`/`ℤ` where the code only
ever produces integers); the float-scoring pipeline of `MemoryStream`
is modelled over `ℝ` because it uses `Math.sqrt`/`Math.pow`.

The file has two parts: first all definitions (the embedding), then the
theorems settling the specification claims.
-/

set_option maxHeartbeats 1000000

namespace WorldSim

/-! ## String helpers (models of JS string primitives) -/

/-- Prefix test on character lists; `charsPrefix sub l` is true when `l`
starts with `sub`. -/
def charsPrefix : List Char → List Char → Bool
  | [], _ => true
  | _ :: _, [] => false
  | a :: as, b :: bs => a == b && charsPrefix as bs

/-- Substring test on character lists: some suffix of the second list starts
with the first list. -/
def charsSub (sub : List Char) : List Char → Bool
  | [] => charsPrefix sub []
  | c :: rest => charsPrefix sub (c :: rest) || charsSub sub rest

/-- Model of JS `s.includes(sub)`. -/
def strIncludes (s sub : String) : Bool :=
  charsSub sub.data s.data

/-- Model of JS `s.toLowerCase()` (character-wise lowering; all strings in
this code base are ASCII). -/
def strToLower (s : String) : String :=
  String.mk (s.data.map Char.toLower)

/-- Helper for `squashWS`: the flag records whether we are inside a
whitespace run (whose first character already produced the underscore). -/
def squashWSGo : Bool → List Char → List Char
  | _, [] => []
  | inRun, c :: cs =>
    if c.isWhitespace then
      if inRun then squashWSGo true cs else '_' :: squashWSGo true cs
    else c :: squashWSGo false cs

/-- Model of JS `replace(/\s+/g, '_')` on a character list: every maximal run
of whitespace becomes a single underscore. -/
def squashWS (l : List Char) : List Char :=
  squashWSGo false l

/-! ## Planner data model (`Plan`, `DailyPlan` from `core/types`, as used by
`Planner.ts`).  Plan ids are produced by `generatePlanId()` from the wall
clock and `Math.random()`; no claim reads ids, so they are modelled by the
constant `"plan"`. -/

structure PlanTime where
  hour : Nat
  minute : Nat
deriving DecidableEq, Repr

structure Plan where
  id : String
  description : String
  startTime : PlanTime
  duration : Nat
  location : Option String
  status : String
deriving DecidableEq, Repr

structure DailyPlan where
  day : Int
  broadStrokes : List Plan
  hourlyPlans : List Plan
  detailedPlans : List Plan
deriving DecidableEq, Repr

/-- `createPlan` from `Planner.ts`. -/
def createPlan (description : String) (startHour startMinute duration : Nat)
    (location : Option String) : Plan :=
  { id := "plan", description := description,
    startTime := { hour := startHour, minute := startMinute },
    duration := duration, location := location, status := "pending" }

/-- The chunk size chosen by one iteration of the `decomposePlanToHourly`
loop: `Math.min(remainingInHour, remainingInPlan, 60)`. -/
def hourlyChunkSize (totalMinutes currentMinute currentMin : Nat) : Nat :=
  min (min (60 - currentMin) (totalMinutes - currentMinute)) 60

/-- The while-loop of `decomposePlanToHourly`.  The source loop runs while
`currentMinute < totalMinutes`; when the chunk size is `0` (which in the
source can only happen on a malformed start minute `≥ 60`, where the JS loop
would not terminate) we stop. -/
def decomposeHourlyGo (plan : Plan) (totalMinutes currentMinute currentHour currentMin : Nat) :
    List Plan :=
  if _h : currentMinute < totalMinutes then
    if _h0 : hourlyChunkSize totalMinutes currentMinute currentMin = 0 then []
    else
      { id := "plan",
        description := plan.description ++ " (" ++ toString (currentMinute / 60 + 1) ++ "/" ++
          toString ((totalMinutes + 59) / 60) ++ ")",
        startTime := { hour := currentHour, minute := currentMin },
        duration := hourlyChunkSize totalMinutes currentMinute currentMin,
        location := plan.location, status := "pending" } ::
      (if currentMin + hourlyChunkSize totalMinutes currentMinute currentMin ≥ 60 then
        decomposeHourlyGo plan totalMinutes
          (currentMinute + hourlyChunkSize totalMinutes currentMinute currentMin)
          (currentHour + 1)
          (currentMin + hourlyChunkSize totalMinutes currentMinute currentMin - 60)
      else
        decomposeHourlyGo plan totalMinutes
          (currentMinute + hourlyChunkSize totalMinutes currentMinute currentMin)
          currentHour
          (currentMin + hourlyChunkSize totalMinutes currentMinute currentMin))
  else []
termination_by totalMinutes - currentMinute
decreasing_by
  · simp only [hourlyChunkSize] at *
    omega
  · simp only [hourlyChunkSize] at *
    omega

/-- `decomposePlanToHourly` from `Planner.ts`. -/
def decomposePlanToHourly (plan : Plan) : List Plan :=
  decomposeHourlyGo plan plan.duration 0 plan.startTime.hour plan.startTime.minute

/-- Minute-of-day at which a plan starts (`startTime.hour * 60 + startTime.minute`). -/
def planStartAbs (p : Plan) : Nat :=
  p.startTime.hour * 60 + p.startTime.minute

/-- Sum of the durations of a list of plans. -/
def sumDurations (ps : List Plan) : Nat :=
  (ps.map (fun p => p.duration)).sum

/-- `tilesFrom start ps`: the plans in `ps` are contiguous starting at
minute-of-day `start` — each plan starts exactly where the previous one
ends (so in particular they do not overlap and leave no gap between them). -/
def tilesFrom : Nat → List Plan → Prop
  | _, [] => True
  | start, p :: rest => planStartAbs p = start ∧ tilesFrom (start + p.duration) rest

/-! ## Routines (`routines.ts`) -/

/-- `BBT_ROUTINES.theoretical_physicist`. -/
def bbtTheoreticalPhysicist : List Plan :=
  [createPlan "Wake up at precisely 6:15 AM" 6 15 15 none,
   createPlan "Morning bathroom routine (exactly 11 minutes)" 6 30 11 none,
   createPlan "Eat breakfast - cereal with 1/4 cup of milk on Mondays" 6 45 30 none,
   createPlan "Watch morning cartoons (Doctor Who reruns)" 7 15 45 none,
   createPlan "Walk to Caltech (Leonard drives)" 8 0 30 none,
   createPlan "Work on string theory equations at Caltech" 8 30 210 none,
   createPlan "Lunch at Caltech cafeteria - it's Thai food Thursday!" 12 0 45 none,
   createPlan "Continue physics research at Caltech" 12 45 195 none,
   createPlan "Leave Caltech" 16 0 30 none,
   createPlan "Play Halo 3 or World of Warcraft" 16 30 90 none,
   createPlan "Watch vintage TV shows" 18 0 60 none,
   createPlan "Order dinner - Chinese food on Tuesdays" 19 0 60 none,
   createPlan "Comic book store visit or board game night" 20 0 120 none,
   createPlan "Prepare for bed with exact routine" 22 0 30 none,
   createPlan "Sleep" 22 30 480 none]

/-- `BBT_ROUTINES.experimental_physicist`. -/
def bbtExperimentalPhysicist : List Plan :=
  [createPlan "Wake up" 7 0 30 none,
   createPlan "Morning routine and breakfast" 7 30 45 none,
   createPlan "Drive Sheldon to Caltech" 8 15 30 none,
   createPlan "Work on laser experiments at Caltech" 8 45 195 none,
   createPlan "Lunch at Caltech" 12 0 45 none,
   createPlan "Continue experimental work at Caltech" 12 45 195 none,
   createPlan "Drive home from Caltech" 16 0 30 none,
   createPlan "Check on Penny or hang out with friends" 16 30 90 none,
   createPlan "Dinner" 18 0 60 none,
   createPlan "Video games or comic store with the guys" 19 0 120 none,
   createPlan "Watch TV or try to have alone time" 21 0 60 none,
   createPlan "Prepare for bed" 22 0 30 none,
   createPlan "Sleep" 22 30 510 none]

/-- `BBT_ROUTINES.waitress`. -/
def bbtWaitress : List Plan :=
  [createPlan "Wake up (usually late)" 9 0 30 none,
   createPlan "Morning routine" 9 30 45 none,
   createPlan "Quick breakfast" 10 15 30 none,
   createPlan "Practice lines for auditions" 10 45 75 none,
   createPlan "Get ready for work" 12 0 60 none,
   createPlan "Work lunch shift at Cheesecake Factory" 13 0 180 none,
   createPlan "Short break at work" 16 0 30 none,
   createPlan "Work dinner shift at Cheesecake Factory" 16 30 210 none,
   createPlan "End shift and clean up" 20 0 30 none,
   createPlan "Hang out with Leonard and the guys" 20 30 90 none,
   createPlan "Watch reality TV or relax" 22 0 60 none,
   createPlan "Sleep" 23 0 600 none]

/-- `BBT_ROUTINES.aerospace_engineer`. -/
def bbtAerospaceEngineer : List Plan :=
  [createPlan "Wake up to mom yelling" 7 30 15 none,
   createPlan "Eat breakfast mom prepared" 7 45 30 none,
   createPlan "Morning routine (using mom's bathroom)" 8 15 30 none,
   createPlan "Drive to Caltech" 8 45 30 none,
   createPlan "Work on NASA projects at Caltech" 9 15 165 none,
   createPlan "Lunch at Caltech cafeteria - hit on women" 12 0 60 none,
   createPlan "Continue engineering work at Caltech" 13 0 180 none,
   createPlan "Leave Caltech" 16 0 30 none,
   createPlan "Hang out with Raj" 16 30 90 none,
   createPlan "Dinner at mom's house" 18 0 60 none,
   createPlan "Comic store or video games with the guys" 19 0 120 none,
   createPlan "Try online dating or work on pickup lines" 21 0 60 none,
   createPlan "Go to sleep at mom's house" 22 0 540 none]

/-- `BBT_ROUTINES.astrophysicist`. -/
def bbtAstrophysicist : List Plan :=
  [createPlan "Wake up" 7 0 30 none,
   createPlan "Morning yoga and meditation" 7 30 30 none,
   createPlan "Breakfast" 8 0 30 none,
   createPlan "Drive to Caltech" 8 30 30 none,
   createPlan "Research on planetary formation at Caltech" 9 0 180 none,
   createPlan "Lunch at Caltech with Howard" 12 0 60 none,
   createPlan "Continue astrophysics research at Caltech" 13 0 180 none,
   createPlan "Leave Caltech" 16 0 30 none,
   createPlan "Hang out with Howard" 16 30 90 none,
   createPlan "Dinner" 18 0 60 none,
   createPlan "Video games or comic store with friends" 19 0 120 none,
   createPlan "Watch romantic comedies alone" 21 0 60 none,
   createPlan "Sleep" 22 0 540 none]

/-- `BBT_ROUTINES.comic_book_store_owner`. -/
def bbtComicBookStoreOwner : List Plan :=
  [createPlan "Wake up alone in small apartment" 8 0 30 none,
   createPlan "Contemplate existence while eating cereal" 8 30 30 none,
   createPlan "Open the Comic Center of Pasadena" 9 0 30 none,
   createPlan "Wait for customers at the Comic Store" 9 30 150 none,
   createPlan "Eat sad lunch alone at the store" 12 0 30 none,
   createPlan "Organize comics nobody will buy at Comic Store" 12 30 180 none,
   createPlan "Hope someone comes in to the Comic Store" 15 30 90 none,
   createPlan "New comic day prep at Comic Store" 17 0 60 none,
   createPlan "Close store, count meager earnings" 18 0 30 none,
   createPlan "Eat dinner alone" 18 30 60 none,
   createPlan "Draw sketches that will never be sold" 19 30 90 none,
   createPlan "Watch TV alone" 21 0 60 none,
   createPlan "Sleep" 22 0 600 none]

/-- `DEFAULT_ROUTINES.artist`. -/
def defaultArtist : List Plan :=
  [createPlan "Wake up and morning routine" 7 0 60 none,
   createPlan "Have breakfast" 8 0 30 none,
   createPlan "Work on art projects at the gallery" 9 0 180 none,
   createPlan "Take a break and have lunch" 12 0 60 none,
   createPlan "Continue art work or meet with clients" 13 0 180 none,
   createPlan "Take a walk for inspiration" 16 0 60 none,
   createPlan "Have dinner" 18 0 60 none,
   createPlan "Relax and socialize" 19 0 120 none,
   createPlan "Prepare for bed" 21 0 60 none]

/-- `DEFAULT_ROUTINES.bookstore_owner`. -/
def defaultBookstoreOwner : List Plan :=
  [createPlan "Wake up and morning routine" 6 30 60 none,
   createPlan "Have breakfast and read" 7 30 45 none,
   createPlan "Open the bookstore" 8 30 30 none,
   createPlan "Manage store and help customers" 9 0 180 none,
   createPlan "Have lunch" 12 0 60 none,
   createPlan "Continue store operations" 13 0 240 none,
   createPlan "Close store and inventory" 17 0 60 none,
   createPlan "Have dinner" 18 0 60 none,
   createPlan "Read or socialize" 19 0 120 none,
   createPlan "Prepare for bed" 21 0 60 none]

/-- `DEFAULT_ROUTINES.barista`. -/
def defaultBarista : List Plan :=
  [createPlan "Wake up early" 5 30 60 none,
   createPlan "Have breakfast" 6 30 30 none,
   createPlan "Commute to cafe" 7 0 30 none,
   createPlan "Open cafe and prepare" 7 30 30 none,
   createPlan "Morning rush - serve customers" 8 0 180 none,
   createPlan "Take a break" 11 0 30 none,
   createPlan "Lunch service" 11 30 150 none,
   createPlan "Afternoon shift" 14 0 180 none,
   createPlan "End shift and clean up" 17 0 60 none,
   createPlan "Have dinner and relax" 18 0 120 none,
   createPlan "Socialize or personal time" 20 0 90 none,
   createPlan "Prepare for bed" 21 30 60 none]

/-- `getGenericRoutine` from `routines.ts`. -/
def getGenericRoutine : List Plan :=
  [createPlan "Wake up and morning routine" 7 0 60 none,
   createPlan "Have breakfast" 8 0 30 none,
   createPlan "Work or activities" 9 0 180 none,
   createPlan "Have lunch" 12 0 60 none,
   createPlan "Continue activities" 13 0 240 none,
   createPlan "Have dinner" 18 0 60 none,
   createPlan "Evening relaxation" 19 0 120 none,
   createPlan "Prepare for bed" 21 0 60 none]

/-- `getDefaultRoutine` from `routines.ts`.  The `DEFAULT_ROUTINES[key]`
record lookup (a three-key object) is modelled by the three key-equality
tests in source order. -/
def getDefaultRoutine (occupation : String) : List Plan :=
  let lower := strToLower occupation
  if strIncludes lower "theoretical physicist" then bbtTheoreticalPhysicist
  else if strIncludes lower "experimental physicist" then bbtExperimentalPhysicist
  else if strIncludes lower "waitress" then bbtWaitress
  else if strIncludes lower "aerospace engineer" then bbtAerospaceEngineer
  else if strIncludes lower "astrophysicist" then bbtAstrophysicist
  else if strIncludes lower "comic" && strIncludes lower "store" then bbtComicBookStoreOwner
  else
    let key := String.mk (squashWS lower.data)
    if key = "artist" then defaultArtist
    else if key = "bookstore_owner" then defaultBookstoreOwner
    else if key = "barista" then defaultBarista
    else getGenericRoutine

/-- `Planner.initializeDailyPlan` from `Planner.ts`: resolve the routine,
decompose every broad stroke to hourly chunks, start with no detailed
plans.  (The `Planner` instances built by `Character` always use
`getDefaultRoutine` as the injected routine generator.) -/
def Planner.initializeDailyPlan (occupation : String) (day : Int) : DailyPlan :=
  let broadStrokes := getDefaultRoutine occupation
  { day := day,
    broadStrokes := broadStrokes,
    hourlyPlans := broadStrokes.flatMap decomposePlanToHourly,
    detailedPlans := [] }

/-! ## Hourly-to-detailed decomposition (`Planner.ts`) -/

/-- `getDetailedActivities` from `Planner.ts`. -/
def getDetailedActivities (planDescription : String) : List String :=
  let lower := strToLower planDescription
  if strIncludes lower "string theory" || strIncludes lower "physics research" then
    ["Review recent physics papers", "Work on equations on whiteboard",
     "Argue about theoretical approaches", "Take a coffee break",
     "Continue working on proofs"]
  else if strIncludes lower "laser" || strIncludes lower "experimental" then
    ["Set up experimental apparatus", "Calibrate laser equipment", "Run experiments",
     "Record data", "Analyze results"]
  else if strIncludes lower "halo" || strIncludes lower "video game" then
    ["Set up gaming station", "Play online matches", "Complain about other players",
     "Take a snack break", "Continue gaming session"]
  else if strIncludes lower "comic" then
    ["Browse new arrivals", "Discuss comic storylines", "Argue about superhero rankings",
     "Make purchases", "Head home with new comics"]
  else if strIncludes lower "cheesecake factory" || strIncludes lower "shift" then
    ["Clock in and put on uniform", "Check table assignments", "Take customer orders",
     "Serve food and drinks", "Handle difficult customers", "Clean tables"]
  else if strIncludes lower "audition" || strIncludes lower "lines" then
    ["Read through script", "Practice emotional delivery", "Work on accents",
     "Record self for review", "Take a break"]
  else if strIncludes lower "morning routine" || strIncludes lower "wake up" then
    ["Get out of bed", "Brush teeth", "Take a shower", "Get dressed",
     "Check phone for messages"]
  else if strIncludes lower "breakfast" then
    ["Prepare breakfast ingredients", "Cook breakfast", "Eat breakfast", "Clean up dishes"]
  else if strIncludes lower "lunch" || strIncludes lower "dinner" then
    ["Decide what to eat", "Prepare or order food", "Eat the meal", "Clean up"]
  else if strIncludes lower "work" || strIncludes lower "caltech" then
    ["Review tasks for the session", "Focus on primary work", "Take a short break",
     "Continue working", "Wrap up current task"]
  else if strIncludes lower "bed" || strIncludes lower "sleep" then
    ["Change into sleepwear", "Brush teeth", "Set alarm for tomorrow", "Get into bed"]
  else
    ["Start " ++ lower, "Continue " ++ lower, "Finish " ++ lower]

/-- The `activities.forEach` loop of `decomposePlanToDetailed`: `per` is the
precomputed `Math.floor(plan.duration / activities.length)`. -/
def detailedGo (per : Nat) (loc : Option String) :
    List String → Nat → Nat → Nat → List Plan
  | [], _, _, _ => []
  | act :: rest, curHour, curMin, remaining =>
    let duration := min (min per remaining) 15
    if duration = 0 then detailedGo per loc rest curHour curMin remaining
    else
      { id := "plan", description := act,
        startTime := { hour := curHour, minute := curMin },
        duration := duration, location := loc, status := "pending" } ::
      (if curMin + duration ≥ 60 then
        detailedGo per loc rest (curHour + 1) (curMin + duration - 60) (remaining - duration)
      else
        detailedGo per loc rest curHour (curMin + duration) (remaining - duration))

/-- `decomposePlanToDetailed` from `Planner.ts`. -/
def decomposePlanToDetailed (plan : Plan) : List Plan :=
  let activities := getDetailedActivities plan.description
  detailedGo (plan.duration / activities.length) plan.location activities
    plan.startTime.hour plan.startTime.minute plan.duration

/-! ## Current-plan resolution (`Planner.ts`) -/

/-- `GameTime` from `core/types` as used by `TimeSystem`/`Planner`:
days and hours are integers throughout the code, minutes and the speed
multiplier can be fractional. -/
structure GameTime where
  day : Int
  hour : Int
  minute : Rat
  speed : Rat
  isPaused : Bool
deriving DecidableEq, Repr

/-- The half-open interval test of `getCurrentPlan`:
`planStart <= currentMinutes && currentMinutes < planStart + plan.duration`. -/
def planCoversAt (currentMinutes : Rat) (p : Plan) : Bool :=
  decide ((planStartAbs p : Rat) ≤ currentMinutes ∧
    currentMinutes < (planStartAbs p : Rat) + (p.duration : Rat))

/-- `getCurrentPlan` from `Planner.ts`: scan detailed, then hourly, then
broad-stroke plans for the first plan covering the current minute-of-day;
each `for`-loop with early `return` is the first match (`List.find?`). -/
def getCurrentPlan (dailyPlan : DailyPlan) (time : GameTime) : Option Plan :=
  let currentMinutes : Rat := (time.hour : Rat) * 60 + time.minute
  match dailyPlan.detailedPlans.find? (planCoversAt currentMinutes) with
  | some p => some p
  | none =>
    match dailyPlan.hourlyPlans.find? (planCoversAt currentMinutes) with
    | some p => some p
    | none => dailyPlan.broadStrokes.find? (planCoversAt currentMinutes)

/-- The broad strokes named in the C3 example ("Walk to work" 08:00 30m,
"Research" 08:30 210m), as a `DailyPlan` with no decompositions. -/
def examplePlanWalk : Plan := createPlan "Walk to work" 8 0 30 none

def examplePlanResearch : Plan := createPlan "Research" 8 30 210 none

def exampleDailyPlan : DailyPlan :=
  { day := 1, broadStrokes := [examplePlanWalk, examplePlanResearch],
    hourlyPlans := [], detailedPlans := [] }

/-! ## TimeSystem (`TimeSystem.ts`).  The event bus is modelled by
returning the list of events a call publishes, in emission order. -/

/-- JS truncating integer quotient (the quotient underlying the `%`
operator on integers). -/
def jsQuot (a b : Int) : Int :=
  a.sign * b.sign * ((a.natAbs / b.natAbs : Nat) : Int)

/-- JS `%` on integers (remainder with the sign of the dividend). -/
def jsRem (a b : Int) : Int :=
  a - b * jsQuot a b

/-- Truncation of a rational toward zero. -/
def ratTrunc (q : Rat) : Int :=
  if 0 ≤ q then ⌊q⌋ else ⌈q⌉

/-- JS `%` on (possibly fractional) numbers. -/
def jsModQ (a b : Rat) : Rat :=
  a - b * ((ratTrunc (a / b) : Rat))

/-- The events `TimeSystem.tick` can publish, with their payloads
(`time:tick`, `time:hour-changed`, `time:day-changed`). -/
inductive TimeEvent where
  | tickEv (time : GameTime) (delta : Rat)
  | hourChanged (oldHour newHour day : Int)
  | dayChanged (oldDay newDay : Int)
deriving DecidableEq, Repr

def TimeEvent.isTickEv : TimeEvent → Bool
  | .tickEv _ _ => true
  | _ => false

def TimeEvent.isHourChanged : TimeEvent → Bool
  | .hourChanged _ _ _ => true
  | _ => false

def TimeEvent.isDayChanged : TimeEvent → Bool
  | .dayChanged _ _ => true
  | _ => false

/-- `TimeSystem.tick`: advance minute-of-day by the speed; on minute
overflow carry into hours, publishing one hour-changed event per hour
crossed; on hour overflow past 24 carry into days, publishing one
day-changed event per day crossed; finally publish the tick event. -/
def TimeSystem.tick (t : GameTime) : GameTime × List TimeEvent :=
  if t.isPaused then (t, [])
  else
    let minute1 := t.minute + t.speed
    let step1 : Rat × Int × List TimeEvent :=
      if 60 ≤ minute1 then
        let hoursToAdd : Int := ⌊minute1 / 60⌋
        (jsModQ minute1 60, t.hour + hoursToAdd,
          (List.range hoursToAdd.toNat).map (fun i =>
            let newHour := jsRem (t.hour + (i : Int) + 1) 24
            TimeEvent.hourChanged (jsRem (newHour - 1 + 24) 24) newHour
              (t.day + Int.fdiv (t.hour + (i : Int) + 1) 24)))
      else (minute1, t.hour, [])
    let step2 : Int × Int × List TimeEvent :=
      if 24 ≤ step1.2.1 then
        let daysToAdd := Int.fdiv step1.2.1 24
        (jsRem step1.2.1 24, t.day + daysToAdd,
          (List.range daysToAdd.toNat).map (fun i =>
            TimeEvent.dayChanged (t.day + (i : Int)) (t.day + (i : Int) + 1)))
      else (step1.2.1, t.day, [])
    let newTime : GameTime :=
      { t with minute := step1.1, hour := step2.1, day := step2.2.1 }
    (newTime, step1.2.2 ++ step2.2.2 ++ [TimeEvent.tickEv newTime t.speed])

/-- `n` consecutive calls to `tick`, collecting all published events. -/
def TimeSystem.tickN : GameTime → Nat → GameTime × List TimeEvent
  | t, 0 => (t, [])
  | t, n + 1 =>
    let r1 := TimeSystem.tick t
    let r2 := TimeSystem.tickN r1.1 n
    (r2.1, r1.2 ++ r2.2)

/-- The broad stroke used in the C1 counterexample. -/
def idleBroadPlan : Plan := createPlan "Idle" 9 0 50 none

/-- The single hourly chunk `decomposePlanToHourly` produces for
`idleBroadPlan`. -/
def idleHourlyPlan : Plan :=
  { id := "plan", description := "Idle (1/1)", startTime := { hour := 9, minute := 0 },
    duration := 50, location := none, status := "pending" }

/-! ## MemoryStream (`MemoryStream.ts`).  Memory ids come from
`generateMemoryId()` (wall clock + `Math.random()`); no claim reads them,
so they are modelled by the constant `"mem"`, and the wall-clock value
`Date.now()` is passed explicitly as `now`. -/

inductive MemoryType where
  | observation
  | reflection
  | plan
  | conversation
  | command
deriving DecidableEq, Repr

structure Memory where
  id : String
  content : String
  createdAt : Rat
  lastAccessedAt : Rat
  importance : Rat
  type : MemoryType
  pointers : Option (List String)
  sourceCharacterId : Option String
  originalMemoryId : Option String
  diffusedTo : List String
deriving DecidableEq, Repr

/-- JS `Math.round` (half-up, toward positive infinity). -/
def jsRound (q : Rat) : Int :=
  ⌊q + 1 / 2⌋

def highImportanceKeywords : List String :=
  ["love", "hate", "angry", "happy", "sad", "excited",
   "important", "decided", "learned", "realized", "discovered",
   "party", "event", "meeting", "election", "birthday",
   "relationship", "friend", "enemy", "crush"]

def lowImportanceKeywords : List String :=
  ["walked", "standing", "sitting", "idle", "waiting",
   "routine", "usual", "normal", "everyday"]

/-- `estimateImportance` from `MemoryStream.ts`: base score 5, +1 per high
keyword present, −0.5 per low keyword present, rounded and clamped by
`Math.max(1, Math.min(10, Math.round(score)))`. -/
def estimateImportance (content : String) : Rat :=
  let lowerContent := strToLower content
  let score : Rat :=
    lowImportanceKeywords.foldl
      (fun s kw => if strIncludes lowerContent kw then s - 1 / 2 else s)
      (highImportanceKeywords.foldl
        (fun s kw => if strIncludes lowerContent kw then s + 1 else s) 5)
  ((max 1 (min 10 (jsRound score)) : Int) : Rat)

/-- `createMemory` from `MemoryStream.ts`; the four optional fields of the
`options` record are passed explicitly. -/
def createMemory (content : String) (type : MemoryType) (now : Rat)
    (importance : Option Rat) (pointers : Option (List String))
    (sourceCharacterId : Option String) (originalMemoryId : Option String) : Memory :=
  { id := "mem", content := content, createdAt := now, lastAccessedAt := now,
    importance := importance.getD (estimateImportance content),
    type := type, pointers := pointers, sourceCharacterId := sourceCharacterId,
    originalMemoryId := originalMemoryId, diffusedTo := [] }

/-- Split a character list at each whitespace character (the `/\s+/` regex
would merge adjacent separators; the difference is only extra empty tokens,
all of which are removed by the length > 3 filter downstream). -/
def tokensGo : List Char → List Char → List (List Char)
  | acc, [] => [acc.reverse]
  | acc, c :: cs =>
    if c.isWhitespace then acc.reverse :: tokensGo [] cs
    else tokensGo (c :: acc) cs

/-- Model of `s.toLowerCase().split(/\s+/).filter(w => w.length > 3)` fed
into a JS `Set` (deduplicated; only size and membership are consumed). -/
def longWords (s : String) : List String :=
  (((tokensGo [] (strToLower s).data).map String.mk).filter
    (fun w => w.length > 3)).dedup

/-- `calculateRecency`: `RECENCY_DECAY ** gameHoursPassed`; it does not read
the memory at all, only the single elapsed-hours argument. -/
noncomputable def calculateRecency (_memory : Memory) (gameHoursPassed : Real) : Real :=
  (0.995 : Real) ^ gameHoursPassed

/-- `calculateRelevance`: normalized overlap of words longer than 3
characters between the memory content and the query. -/
noncomputable def calculateRelevance (m : Memory) (query : String) : Real :=
  let memoryWords := longWords m.content
  let queryWords := longWords query
  if memoryWords.length = 0 ∨ queryWords.length = 0 then 0
  else
    ((queryWords.filter (fun w => decide (w ∈ memoryWords))).length : Real) /
      Real.sqrt ((memoryWords.length : Real) * (queryWords.length : Real))

/-- `Math.min(...scores)` over a nonempty score list (`retrieve` guards the
empty case before calling). -/
noncomputable def minScore : List Real → Real
  | [] => 0
  | s :: rest => rest.foldl min s

/-- `Math.max(...scores)` over a nonempty score list. -/
noncomputable def maxScore : List Real → Real
  | [] => 0
  | s :: rest => rest.foldl max s

/-- `normalizeScores` from `MemoryStream.ts`. -/
noncomputable def normalizeScores (scores : List Real) : List Real :=
  let mn := minScore scores
  let mx := maxScore scores
  if mx = mn then scores.map (fun _ => 1)
  else scores.map (fun s => (s - mn) / (mx - mn))

structure RetrievalWeights where
  recency : Real
  importance : Real
  relevance : Real

/-- The index-wise weighted sum
`weights.recency * normRecency[i] + weights.importance * normImportance[i] +
weights.relevance * normRelevance[i]`. -/
noncomputable def combineScores (weights : RetrievalWeights) :
    List Real → List Real → List Real → List Real
  | r :: rs, i :: js, v :: vs =>
    (weights.recency * r + weights.importance * i + weights.relevance * v) ::
      combineScores weights rs js vs
  | _, _, _ => []

/-- Stable insertion step for the descending sort: an element is placed
before the first earlier-scored-or-equal... (it goes after all strictly
greater scores and, among equal scores, after the earlier elements —
matching the stable JS `sort((a, b) => b.score - a.score)`). -/
noncomputable def insertByScoreDesc (x : Memory × Real) :
    List (Memory × Real) → List (Memory × Real)
  | [] => [x]
  | y :: ys => if y.2 ≤ x.2 then x :: y :: ys else y :: insertByScoreDesc x ys

/-- Stable descending sort by score (model of the stable JS array sort with
comparator `(a, b) => b.score - a.score`). -/
noncomputable def sortByScoreDesc : List (Memory × Real) → List (Memory × Real)
  | [] => []
  | x :: xs => insertByScoreDesc x (sortByScoreDesc xs)

/-- `MemoryStream.retrieve`: empty guard, three independently normalized
score axes, weighted sum, stable descending sort, top-K.  The returned
memories are modelled; the `lastAccessedAt := Date.now()` stamping of the
returned memories (an ambient-wall-clock write that no claim reads) is not
modelled. -/
noncomputable def MemoryStream.retrieve (memories : List Memory) (query : String)
    (gameHoursPassed : Real) (weights : RetrievalWeights) (topK : Nat) : List Memory :=
  if memories.isEmpty then []
  else
    let recencyScores := memories.map (fun m => calculateRecency m gameHoursPassed)
    let importanceScores := memories.map (fun m => (m.importance : Real) / 10)
    let relevanceScores := memories.map (fun m => calculateRelevance m query)
    let normRecency := normalizeScores recencyScores
    let normImportance := normalizeScores importanceScores
    let normRelevance := normalizeScores relevanceScores
    let finalScores := combineScores weights normRecency normImportance normRelevance
    let indexed := memories.zip finalScores
    let sorted := sortByScoreDesc indexed
    (sorted.take topK).map (fun item => item.1)

/-- Two concrete memories for the C5 witness; their contents have no words
longer than 3 characters, so both have relevance 0 for every query. -/
def witnessMemoryA : Memory :=
  createMemory "hi" MemoryType.observation 0 (some 7) none none none

def witnessMemoryB : Memory :=
  createMemory "yo" MemoryType.observation 0 (some 3) none none none

/-! ## ConversationManager (`ConversationManager.ts`) -/

structure Position where
  x : Int
  y : Int
deriving DecidableEq, Repr

structure ConversationMessage where
  speakerId : String
  content : String
  timestamp : Rat
deriving DecidableEq, Repr

structure Conversation where
  id : String
  participants : List String
  messages : List ConversationMessage
  startTime : Rat
  endTime : Option Rat
  location : Position
deriving DecidableEq, Repr

/-- JS `Map.get` over an association list in insertion order. -/
def mapGet {κ α : Type} [BEq κ] (m : List (κ × α)) (k : κ) : Option α :=
  (m.find? (fun kv => kv.1 == k)).map (fun kv => kv.2)

/-- JS `Map.set`: replace the value in place when the key exists, append
otherwise. -/
def mapSet {κ α : Type} [BEq κ] (m : List (κ × α)) (k : κ) (v : α) : List (κ × α) :=
  if m.any (fun kv => kv.1 == k) then
    m.map (fun kv => if kv.1 == k then (k, v) else kv)
  else m ++ [(k, v)]

/-- The private state of a `ConversationManager`: the conversation registry
(a JS `Map` keyed by conversation id) and the active-conversation pointer. -/
structure ConversationManagerState where
  conversations : List (String × Conversation)
  activeConversation : Option Conversation
deriving DecidableEq, Repr

inductive ConvEvent where
  | ended (conversationId : String) (participants : List String) (messageCount : Nat)
deriving DecidableEq, Repr

/-- `ConversationManager.end` (named `endConversation` here because `end` is
reserved in Lean): look up the conversation; when missing, return without
touching anything; otherwise stamp the end time, clear the active pointer if
it has this id, and publish `conversation:ended`. -/
def ConversationManager.endConversation (st : ConversationManagerState)
    (conversationId : String) (now : Rat) : ConversationManagerState × List ConvEvent :=
  match mapGet st.conversations conversationId with
  | none => (st, [])
  | some conversation =>
    let updated := { conversation with endTime := some now }
    let conversations := st.conversations.map
      (fun kv => if kv.1 == conversationId then (kv.1, updated) else kv)
    let active :=
      if st.activeConversation.map (fun c => c.id) = some conversationId then none
      else st.activeConversation
    ({ conversations := conversations, activeConversation := active },
     [ConvEvent.ended conversationId conversation.participants conversation.messages.length])

/-! ## GameMap (`GameMap.ts`) -/

inductive Direction where
  | up
  | down
  | left
  | right
deriving DecidableEq, Repr

structure LocationBounds where
  minX : Int
  maxX : Int
  minY : Int
  maxY : Int
deriving DecidableEq, Repr

/-- `TileType` is a string union in `core/types`. -/
abbrev TileType := String

structure MapData where
  width : Int
  height : Int
  tiles : List (List TileType)
  locationBounds : List (String × LocationBounds)
deriving DecidableEq, Repr

structure GameMap where
  width : Int
  height : Int
  tiles : List (List TileType)
  locationBounds : List (String × LocationBounds)
deriving DecidableEq, Repr

/-- The `GameMap` constructor. -/
def GameMap.ofMapData (d : MapData) : GameMap :=
  { width := d.width, height := d.height, tiles := d.tiles,
    locationBounds := d.locationBounds }

/-- `GameMap.createEmpty` (default tile `'grass'`). -/
def GameMap.createEmpty (width height : Int) : GameMap :=
  { width := width, height := height,
    tiles := List.replicate height.toNat (List.replicate width.toNat "grass"),
    locationBounds := [] }

/-- `getTile`: bounds check, then `tiles[y]?.[x] ?? null`. -/
def GameMap.getTile (g : GameMap) (x y : Int) : Option TileType :=
  if x < 0 ∨ x ≥ g.width ∨ y < 0 ∨ y ≥ g.height then none
  else (g.tiles.get? y.toNat).bind (fun row => row.get? x.toNat)

def walkableTiles : List TileType := ["grass", "path", "floor", "door"]

/-- `isWalkable`: the tile exists and is in the walkable set.  (All tile
type names are nonempty strings, so the JS falsiness test on the tile is
exactly the null test.) -/
def GameMap.isWalkable (g : GameMap) (x y : Int) : Bool :=
  match g.getTile x y with
  | none => false
  | some tile => walkableTiles.contains tile

/-- `getNewPosition`: one step in a direction, clamped to the grid edges. -/
def GameMap.getNewPosition (g : GameMap) (position : Position) (direction : Direction) :
    Position :=
  match direction with
  | .up => { position with y := max 0 (position.y - 1) }
  | .down => { position with y := min (g.height - 1) (position.y + 1) }
  | .left => { position with x := max 0 (position.x - 1) }
  | .right => { position with x := min (g.width - 1) (position.x + 1) }

/-- The Manhattan-distance heuristic of `findPath`
(`Math.abs(a.x - b.x) + Math.abs(a.y - b.y)`, always a natural number). -/
def manhattan (a b : Position) : Nat :=
  (a.x - b.x).natAbs + (a.y - b.y).natAbs

/-- An entry of the A* open set. -/
structure ANode where
  position : Position
  g : Nat
  f : Nat
  parent : Option Position
deriving DecidableEq, Repr

/-- The comparison of the open-set sort (`(a, b) => a.f - b.f`, ascending). -/
def fLE (a b : ANode) : Prop := a.f ≤ b.f

instance : DecidableRel fLE := fun a b => Nat.decLe a.f b.f

instance : IsTotal ANode fLE := ⟨fun a b => Nat.le_total a.f b.f⟩

instance : IsTrans ANode fLE := ⟨fun _ _ _ hab hbc => Nat.le_trans hab hbc⟩

/-- The stable ascending sort by `f` of the open set (JS array sort is
stable; stable insertion sort realizes it). -/
def sortByF (l : List ANode) : List ANode := l.insertionSort fLE

def allDirections : List Direction := [.up, .down, .left, .right]

/-- One neighbor of the A* inner loop: skip closed, unwalkable or occupied
cells; otherwise push a new open node, or decrease-key an existing one when
the new `g` is smaller (`cameFrom` is updated in both cases). -/
def stepNeighbor (g : GameMap) (occupied : List Position) (toPos : Position)
    (closed : List Position) (current : ANode)
    (acc : List ANode × List (Position × Position)) (dir : Direction) :
    List ANode × List (Position × Position) :=
  let neighbor := g.getNewPosition current.position dir
  if neighbor ∈ closed then acc
  else if ¬ g.isWalkable neighbor.x neighbor.y then acc
  else if neighbor ∈ occupied then acc
  else
    let gScore := current.g + 1
    let fScore := gScore + manhattan neighbor toPos
    match acc.1.findIdx? (fun n => n.position == neighbor) with
    | none =>
      (acc.1 ++ [{ position := neighbor, g := gScore, f := fScore,
                   parent := some current.position }],
       mapSet acc.2 neighbor current.position)
    | some i =>
      match acc.1.get? i with
      | none => acc
      | some existing =>
        if gScore < existing.g then
          (acc.1.set i { existing with g := gScore, f := fScore },
           mapSet acc.2 neighbor current.position)
        else acc

/-- The open node `findPath` pushes for a newly seen neighbor. -/
def pushNode (current : ANode) (nb toPos : Position) : ANode :=
  { position := nb, g := current.g + 1, f := current.g + 1 + manhattan nb toPos, parent := some current.position }

/-- The decrease-key update `findPath` applies to an already-open neighbor. -/
def updNode (existing current : ANode) (nb toPos : Position) : ANode :=
  { existing with g := current.g + 1, f := current.g + 1 + manhattan nb toPos }

/-- The four-direction neighbor loop of `findPath`. -/
def expandNeighbors (g : GameMap) (occupied : List Position) (toPos : Position)
    (closed : List Position) (current : ANode)
    (openRest : List ANode) (came : List (Position × Position)) :
    List ANode × List (Position × Position) :=
  allDirections.foldl (stepNeighbor g occupied toPos closed current) (openRest, came)

/-- Path reconstruction: follow `cameFrom` from the goal back to the start,
prepending each position (the JS `while`/`unshift` loop).  The fuel only
truncates on a cyclic `cameFrom`, which the invariants exclude. -/
def reconstructPath (came : List (Position × Position)) : Nat → Position → List Position
  | 0, pos => [pos]
  | fuel + 1, pos =>
    match mapGet came pos with
    | none => [pos]
    | some parent => reconstructPath came fuel parent ++ [pos]

/-- The A* `while (openSet.length > 0)` loop.  Each iteration sorts the open
set ascending by `f` and pops the head; the fuel dominates the iteration
count (each iteration closes one previously unclosed cell of the finite
grid), so with the fuel chosen by `findPath` it never truncates. -/
def astarLoop (g : GameMap) (occupied : List Position) (toPos : Position) :
    Nat → List ANode → List Position → List (Position × Position) → List Position
  | 0, _, _, _ => []
  | fuel + 1, openSet, closed, came =>
    match sortByF openSet with
    | [] => []
    | current :: rest =>
      if current.position == toPos then
        reconstructPath came (came.length + 1) current.position
      else
        let closed2 := current.position :: closed
        let next := expandNeighbors g occupied toPos closed2 current rest came
        astarLoop g occupied toPos fuel next.1 closed2 next.2

/-- `GameMap.findPath`: 4-directional grid A* with Manhattan heuristic and
an external occupied-cell exclusion set; returns `[]` when unreachable.
(`from` is a Lean keyword, hence `fromPos`/`toPos`.) -/
def GameMap.findPath (g : GameMap) (fromPos toPos : Position)
    (occupiedPositions : List Position) : List Position :=
  astarLoop g occupiedPositions toPos (g.width.toNat * g.height.toNat + 2)
    [{ position := fromPos, g := 0, f := manhattan fromPos toPos, parent := none }] [] []

/-! ### Specification vocabulary for `findPath` -/

/-- `p` lies on the grid. -/
def inBounds (g : GameMap) (p : Position) : Prop :=
  0 ≤ p.x ∧ p.x < g.width ∧ 0 ≤ p.y ∧ p.y < g.height

/-- One step the algorithm can take: a clamped 4-directional move that
actually changes position. -/
def AdjStep (g : GameMap) (p q : Position) : Prop :=
  q ≠ p ∧ ∃ dir ∈ allDirections, q = g.getNewPosition p dir

/-- The cell is walkable and not in the occupied set. -/
def FreeCell (g : GameMap) (occupied : List Position) (p : Position) : Prop :=
  g.isWalkable p.x p.y = true ∧ p ∉ occupied

/-- The claim's notion of a 4-directional walkable, unoccupied path from
`fromPos` to `toPos`: consecutive cells at Manhattan distance 1, every cell
(including both endpoints) walkable and unoccupied. -/
def isFullPath (g : GameMap) (occupied : List Position) (fromPos toPos : Position)
    (l : List Position) : Prop :=
  l.head? = some fromPos ∧ l.getLast? = some toPos ∧
  l.Chain' (fun p q => manhattan p q = 1) ∧
  ∀ p ∈ l, FreeCell g occupied p

/-- The paths the algorithm itself realizes: clamped moves, every cell
after the first walkable and unoccupied (the start cell is never checked by
the code). -/
def isCodePath (g : GameMap) (occupied : List Position) (fromPos toPos : Position)
    (l : List Position) : Prop :=
  l.head? = some fromPos ∧ l.getLast? = some toPos ∧
  l.Chain' (AdjStep g) ∧ ∀ p ∈ l.tail, FreeCell g occupied p

/-- `Chains came p l`: following `cameFrom` from `p` back to a position with
no entry yields exactly the list `l` (which ends at `p`). -/
inductive Chains (came : List (Position × Position)) : Position → List Position → Prop where
  | base (p : Position) : mapGet came p = none → Chains came p [p]
  | step (p parent : Position) (l : List Position) :
      mapGet came p = some parent → Chains came parent l → Chains came p (l ++ [p])

/-- The chain facts the loop invariant records for one open node: its
`cameFrom` chain is a duplicate-free code path from the start of length
`g + 1` whose cells before the last are closed. -/
def ChainOk (g : GameMap) (occupied : List Position) (fromPos : Position)
    (closed : List Position) (came : List (Position × Position))
    (n : ANode) : Prop :=
  ∃ l, Chains came n.position l ∧ l.head? = some fromPos ∧
    l.length = n.g + 1 ∧ l.Chain' (AdjStep g) ∧ (∀ p ∈ l.tail, FreeCell g occupied p) ∧
    l.Nodup ∧ ∀ p ∈ l.dropLast, p ∈ closed

/-- The loop invariant of `astarLoop` that holds on every grid: open-set
positions are distinct and not yet closed, the closed set is duplicate-free and
contains only the start or free cells, `cameFrom` has distinct keys, and
every open node's `cameFrom` chain is a code path from the start of length
`g + 1` whose interior is closed. -/
structure GInv (g : GameMap) (occupied : List Position) (fromPos : Position)
    (openSet : List ANode) (closed : List Position)
    (came : List (Position × Position)) : Prop where
  nodupOpen : (openSet.map ANode.position).Nodup
  openNotClosed : ∀ n ∈ openSet, n.position ∉ closed
  nodupClosed : closed.Nodup
  closedScope : ∀ p ∈ closed, p = fromPos ∨ FreeCell g occupied p
  openScope : ∀ n ∈ openSet, n.position = fromPos ∨ FreeCell g occupied n.position
  cameKeysNodup : (came.map Prod.fst).Nodup
  chains : ∀ n ∈ openSet, ChainOk g occupied fromPos closed came n

/-- The variant of `ChainOk` used for the node being expanded: its whole
chain, last cell included, lies in the extended closed set. -/
def CurChain (g : GameMap) (occupied : List Position) (fromPos : Position)
    (closed2 : List Position) (came : List (Position × Position))
    (current : ANode) : Prop :=
  ∃ l, Chains came current.position l ∧ l.head? = some fromPos ∧
    l.length = current.g + 1 ∧ l.Chain' (AdjStep g) ∧
    (∀ p ∈ l.tail, FreeCell g occupied p) ∧ l.Nodup ∧ ∀ p ∈ l, p ∈ closed2

/-- The invariant carried through the four-direction neighbor fold of one
`astarLoop` iteration (the closed set already contains the expanded node). -/
def StepInv (g : GameMap) (occupied : List Position) (fromPos : Position)
    (current : ANode) (closed2 : List Position)
    (acc : List ANode × List (Position × Position)) : Prop :=
  GInv g occupied fromPos acc.1 closed2 acc.2 ∧
  current.position ∈ closed2 ∧
  CurChain g occupied fromPos closed2 acc.2 current

/-- The additional invariant available on an all-walkable grid with no
occupied cells: `f = g + h`, `g` dominates the true (Manhattan) distance,
the start keeps `g = 0` and stays known, and every closed cell has had all
its unclosed neighbors opened with a near-optimal `g`. -/
structure FreeInv (g : GameMap) (fromPos toPos : Position)
    (openSet : List ANode) (closed : List Position) : Prop where
  fVal : ∀ n ∈ openSet, n.f = n.g + manhattan n.position toPos
  gLower : ∀ n ∈ openSet, manhattan fromPos n.position ≤ n.g
  fromG : ∀ n ∈ openSet, n.position = fromPos → n.g = 0
  fromIn : fromPos ∈ openSet.map ANode.position ∨ fromPos ∈ closed
  expanded : ∀ p ∈ closed, ∀ dir ∈ allDirections,
    g.getNewPosition p dir ≠ p → g.getNewPosition p dir ∉ closed →
    ∃ n ∈ openSet, n.position = g.getNewPosition p dir ∧
      n.g ≤ manhattan fromPos p + 1

/-- `l2` dominates `l`: every open node of `l` has a node of `l2` at the
same position with a `g` no larger. -/
def OpenDom (l l2 : List ANode) : Prop :=
  ∀ n ∈ l, ∃ n2 ∈ l2, n2.position = n.position ∧ n2.g ≤ n.g

/-- The part of `FreeInv` carried through the neighbor fold on an
all-walkable grid: value/lower-bound facts for every open node, the start
stays known, and the old closed cells keep open witnesses. -/
def FreeAcc (g : GameMap) (fromPos toPos : Position)
    (closed closed2 : List Position) (openL : List ANode) : Prop :=
  (∀ n ∈ openL, n.f = n.g + manhattan n.position toPos) ∧
  (∀ n ∈ openL, manhattan fromPos n.position ≤ n.g) ∧
  (∀ n ∈ openL, n.position = fromPos → n.g = 0) ∧
  (fromPos ∈ openL.map ANode.position ∨ fromPos ∈ closed2) ∧
  (∀ p ∈ closed, ∀ dir ∈ allDirections,
    g.getNewPosition p dir ≠ p → g.getNewPosition p dir ∉ closed2 →
    ∃ n ∈ openL, n.position = g.getNewPosition p dir ∧ n.g ≤ manhattan fromPos p + 1)

/-! ## Character / CharacterManager / World (`Character.ts`,
`CharacterManager.ts`, `World.ts`).  Ambient `Date.now()` values are passed
explicitly as `now`; `Math.random()`-derived values (world id, relationship
`lastInteraction` offsets) are modelled by constants or an explicit
function, since no claim reads them. -/

structure Relationship where
  characterId : String
  description : String
  lastInteraction : Rat
  sentiment : Rat
deriving DecidableEq, Repr

structure UserCommand where
  id : String
  command : String
  issuedAt : Rat
  processedAt : Option Rat
  interpretation : Option String
deriving DecidableEq, Repr

structure DiffusionEvent where
  id : String
  originalMemoryId : String
  originalContent : String
  sourceCharacterId : String
  targetCharacterId : String
  timestamp : Rat
  context : String
deriving DecidableEq, Repr

/-- Opaque appearance descriptor produced by the injected sprite factory;
the core stores it but never interprets it. -/
abbrev CharacterSprite := String

structure CharacterData where
  id : String
  name : String
  age : Rat
  position : Position
  color : String
  sprite : CharacterSprite
  direction : Direction
  isMoving : Bool
  personality : String
  occupation : String
  lifestyle : String
  memoryStream : List Memory
  currentPlan : Option DailyPlan
  currentAction : String
  currentActionEmoji : String
  relationships : List (String × Relationship)
  lastReflectionTime : Rat
  importanceAccumulator : Rat
  pendingCommands : List UserCommand
deriving DecidableEq, Repr

/-- The private state of a `MemoryStream` instance. -/
structure MemoryStreamState where
  memories : List Memory
  importanceAccumulator : Rat
  diffusionLog : List DiffusionEvent
deriving DecidableEq, Repr

/-- The `MemoryStream` constructor: copies the initial memories and zeroes
the accumulator. -/
def MemoryStream.ofInitial (initialMemories : List Memory) : MemoryStreamState :=
  { memories := initialMemories, importanceAccumulator := 0, diffusionLog := [] }

/-- A `Character` instance: its `data` record, its owned `MemoryStream`, and
its `Planner`'s current daily plan (the planner starts with `null` and is
set from `data.currentPlan` when present). -/
structure Character where
  data : CharacterData
  memoryStream : MemoryStreamState
  planner : Option DailyPlan
deriving DecidableEq, Repr

/-- The `Character` constructor (also `Character.deserialize`). -/
def Character.ofData (d : CharacterData) : Character :=
  { data := d, memoryStream := MemoryStream.ofInitial d.memoryStream,
    planner := d.currentPlan }

/-- `Character.serialize`: the data record with the live memory list and the
planner's current plan spliced in. -/
def Character.serialize (c : Character) : CharacterData :=
  { c.data with memoryStream := c.memoryStream.memories, currentPlan := c.planner }

/-- `Character.initializeDailyPlan`: plan from the occupation, stored both
in the planner and in `data.currentPlan`. -/
def Character.initializeDailyPlan (c : Character) (day : Int) : Character :=
  let plan := Planner.initializeDailyPlan c.data.occupation day
  { c with planner := some plan, data := { c.data with currentPlan := some plan } }

/-- The `CharacterManager` registry (a JS `Map` keyed by character id). -/
structure CharacterManagerState where
  characters : List (String × Character)
deriving DecidableEq, Repr

def CharacterManager.add (st : CharacterManagerState) (c : Character) :
    CharacterManagerState :=
  { characters := mapSet st.characters c.data.id c }

def CharacterManager.serialize (st : CharacterManagerState) : List CharacterData :=
  st.characters.map (fun kv => kv.2.serialize)

/-- `CharacterManager.deserialize`: clear, then re-register each snapshot. -/
def CharacterManager.deserialize (data : List CharacterData) : CharacterManagerState :=
  { characters := data.foldl (fun m d => mapSet m d.id (Character.ofData d)) [] }

def CharacterManager.initializeDailyPlans (st : CharacterManagerState) (day : Int) :
    CharacterManagerState :=
  { characters := st.characters.map (fun kv => (kv.1, kv.2.initializeDailyPlan day)) }

def ConversationManager.serialize (st : ConversationManagerState) : List Conversation :=
  st.conversations.map (fun kv => kv.2)

/-- `ConversationManager.deserialize`: clear, re-register each conversation,
and point `activeConversation` at the last one without an end time.  (JS
truthiness would also treat an `endTime` of exactly `0` as absent;
`Date.now()` end stamps are never `0`.) -/
def ConversationManager.deserialize (data : List Conversation) :
    ConversationManagerState :=
  data.foldl
    (fun st conv =>
      { conversations := mapSet st.conversations conv.id conv,
        activeConversation :=
          if conv.endTime = none then some conv else st.activeConversation })
    { conversations := [], activeConversation := none }

/-- Environment tree node (`name`, `type`, optional position, optional
mutable state text, optional children). -/
inductive EnvironmentNode where
  | mk (name : String) (type : String) (position : Option Position)
      (state : Option String) (children : List EnvironmentNode)

structure GridSize where
  width : Int
  height : Int
deriving DecidableEq, Repr

structure WorldConfig where
  id : String
  name : String
  description : String
  gridSize : GridSize
  tileSize : Rat
  startTime : GameTime
deriving Repr

/-- The persisted `WorldState` snapshot. -/
structure WorldState where
  config : WorldConfig
  time : GameTime
  characters : List CharacterData
  conversations : List Conversation
  environment : EnvironmentNode
  diffusionLog : List DiffusionEvent
  simulationLog : List String
  createdAt : Rat
  updatedAt : Rat

/-- The live `World` instance: the readonly config fields and the owned
subsystem states.  (The event bus itself carries no serialized state; each
call that publishes is modelled as returning its events.) -/
structure World where
  id : String
  name : String
  description : String
  gridSize : GridSize
  tileSize : Rat
  time : GameTime
  characters : CharacterManagerState
  conversations : ConversationManagerState
  environment : EnvironmentNode
  locationBounds : List (String × LocationBounds)
  map : GameMap
  simulationLog : List String
  diffusionLog : List DiffusionEvent
  createdAt : Rat
  updatedAt : Rat

/-- JS `padStart(2, '0')`. -/
def pad2 (s : String) : String :=
  if s.length ≥ 2 then s else if s.length = 1 then "0" ++ s else "00"

/-- `World.addToLog`: timestamped line appended; the log is truncated to its
last 500 lines when it exceeds 1000. -/
def World.addToLog (w : World) (message : String) : World :=
  let timestamp := "Day " ++ toString w.time.day ++ " " ++
    pad2 (toString w.time.hour) ++ ":" ++ pad2 (toString w.time.minute)
  let log := w.simulationLog ++ ["[" ++ timestamp ++ "] " ++ message]
  { w with simulationLog := if log.length > 1000 then log.drop (log.length - 500) else log }

/-- `createMemory(m.content, m.type)` for each template memory,
`createCharacterFromTemplate`'s data record.  `lastInteractionOf` supplies
the `now - Math.random() * 259200000` value for each relationship key. -/
structure InitialMemory where
  content : String
  type : MemoryType
deriving DecidableEq, Repr

structure InitialRelationship where
  description : String
  sentiment : Rat
deriving DecidableEq, Repr

structure CharacterTemplate where
  id : String
  name : String
  age : Rat
  color : String
  startPosition : Position
  personality : String
  occupation : String
  lifestyle : String
  initialMemories : List InitialMemory
  initialRelationships : List (String × InitialRelationship)
deriving DecidableEq, Repr

/-- `createCharacterFromTemplate` from `Character.ts`. -/
def createCharacterFromTemplate (template : CharacterTemplate)
    (sprite : CharacterSprite) (now : Rat) (lastInteractionOf : String → Rat) :
    Character :=
  let memories := template.initialMemories.map
    (fun m => createMemory m.content m.type now none none none none)
  let relationships := template.initialRelationships.map
    (fun kv => (kv.1,
      ({ characterId := kv.1, description := kv.2.description,
         lastInteraction := lastInteractionOf kv.1,
         sentiment := kv.2.sentiment } : Relationship)))
  Character.ofData
    { id := template.id, name := template.name, age := template.age,
      position := template.startPosition, color := template.color, sprite := sprite,
      direction := .down, isMoving := false, personality := template.personality,
      occupation := template.occupation, lifestyle := template.lifestyle,
      memoryStream := memories, currentPlan := none,
      currentAction := "Starting the day", currentActionEmoji := "🌅",
      relationships := relationships, lastReflectionTime := now,
      importanceAccumulator := 0, pendingCommands := [] }

/-- `Partial<GameTime>` as it appears in `WorldTemplate.startTime`. -/
structure PartialGameTime where
  day : Option Int
  hour : Option Int
  minute : Option Rat
  speed : Option Rat
  isPaused : Option Bool
deriving DecidableEq, Repr

/-- The spread-merge `{ day: 1, hour: 8, minute: 0, speed: 1,
isPaused: false, ...template.startTime }` of `World.fromTemplate` (the same
defaults as the `TimeSystem` constructor's `DEFAULT_TIME`). -/
def mergeStartTime (p : PartialGameTime) : GameTime :=
  { day := p.day.getD 1, hour := p.hour.getD 8, minute := p.minute.getD 0,
    speed := p.speed.getD 1, isPaused := p.isPaused.getD false }

structure WorldTemplate where
  id : String
  name : String
  description : String
  gridSize : GridSize
  tileSize : Rat
  startTime : PartialGameTime
  characters : List CharacterTemplate
  environmentTree : EnvironmentNode
  environmentBounds : List (String × LocationBounds)
  mapData : Option MapData
  spriteGenerator : String → String → CharacterSprite

/-- The `World` constructor `new World(config, template)` followed by
`World.fromTemplate`'s config construction; the generated world id
(`world-${Date.now()}-…`) is modelled by the constant `"world"`. -/
def World.fromTemplate (template : WorldTemplate) (now : Rat)
    (lastInteractionOf : String → Rat) : World :=
  let startTime := mergeStartTime template.startTime
  let initialCharacters := template.characters.foldl
    (fun st charTemplate =>
      CharacterManager.add st
        (createCharacterFromTemplate charTemplate
          (template.spriteGenerator charTemplate.color charTemplate.id)
          now lastInteractionOf))
    { characters := [] }
  let w : World :=
    { id := "world", name := template.name, description := template.description,
      gridSize := template.gridSize, tileSize := template.tileSize,
      time := startTime,
      characters := CharacterManager.initializeDailyPlans initialCharacters startTime.day,
      conversations := { conversations := [], activeConversation := none },
      environment := template.environmentTree,
      locationBounds := template.environmentBounds,
      map := match template.mapData with
        | some d => GameMap.ofMapData d
        | none => GameMap.createEmpty template.gridSize.width template.gridSize.height,
      simulationLog := [], diffusionLog := [],
      createdAt := now, updatedAt := now }
  w.addToLog "World initialized"

/-- `World.serialize`: sets `updatedAt` to the wall clock and returns the
snapshot (`config.startTime` is the *current* time, as in the source);
the mutated world is returned alongside. -/
def World.serialize (w : World) (now : Rat) : WorldState × World :=
  let config : WorldConfig :=
    { id := w.id, name := w.name, description := w.description,
      gridSize := w.gridSize, tileSize := w.tileSize, startTime := w.time }
  ({ config := config,
     time := w.time,
     characters := CharacterManager.serialize w.characters,
     conversations := ConversationManager.serialize w.conversations,
     environment := w.environment,
     diffusionLog := w.diffusionLog,
     simulationLog := w.simulationLog,
     createdAt := w.createdAt,
     updatedAt := now },
   { w with updatedAt := now })

/-- `World.loadState`: restore time, characters, conversations, logs and
timestamps (the environment and map are not restored; the `world:loaded`
event it emits has no subscriber that mutates state). -/
def World.loadState (w : World) (state : WorldState) : World :=
  { w with
    time := state.time,
    characters := CharacterManager.deserialize state.characters,
    conversations := ConversationManager.deserialize state.conversations,
    diffusionLog := state.diffusionLog,
    simulationLog := state.simulationLog,
    createdAt := state.createdAt,
    updatedAt := state.updatedAt }

/-! # Theorems -/

/-! ## Tiling of the hourly decomposition -/

theorem tilesFrom_cons {start : Nat} {p : Plan} {rest : List Plan} :
    tilesFrom start (p :: rest) ↔ planStartAbs p = start ∧ tilesFrom (start + p.duration) rest := by
  simp [tilesFrom]

theorem sumDurations_cons (p : Plan) (rest : List Plan) :
    sumDurations (p :: rest) = p.duration + sumDurations rest := by
  simp [sumDurations]

theorem decomposeHourlyGo_spec (plan : Plan) :
    ∀ (fuel total cm ch cmin : Nat), total - cm ≤ fuel → cmin < 60 → cm ≤ total →
      tilesFrom (ch * 60 + cmin) (decomposeHourlyGo plan total cm ch cmin) ∧
      sumDurations (decomposeHourlyGo plan total cm ch cmin) = total - cm ∧
      ∀ p ∈ decomposeHourlyGo plan total cm ch cmin,
        0 < p.duration ∧ p.duration ≤ 60 ∧ p.startTime.minute < 60 := by
  intro fuel
  induction fuel with
  | zero =>
    intro total cm ch cmin hfuel hmin hle
    have hcm : ¬ cm < total := by omega
    rw [decomposeHourlyGo, dif_neg hcm]
    refine ⟨trivial, ?_, by simp⟩
    simp only [sumDurations, List.map_nil, List.sum_nil]
    omega
  | succ n IH =>
    intro total cm ch cmin hfuel hmin hle
    by_cases hcm : cm < total
    · have hbounds : 1 ≤ hourlyChunkSize total cm cmin ∧
          hourlyChunkSize total cm cmin ≤ 60 - cmin ∧
          hourlyChunkSize total cm cmin ≤ total - cm ∧
          hourlyChunkSize total cm cmin ≤ 60 := by
        simp only [hourlyChunkSize]
        omega
      have hchunk : ¬ hourlyChunkSize total cm cmin = 0 := by omega
      rw [decomposeHourlyGo, dif_pos hcm, dif_neg hchunk]
      set c := hourlyChunkSize total cm cmin with hc
      obtain ⟨hb1, hb2, hb3, hb4⟩ := hbounds
      by_cases hover : cmin + c ≥ 60
      · rw [if_pos hover]
        obtain ⟨ht, hs, hb⟩ := IH total (cm + c) (ch + 1) (cmin + c - 60)
          (by omega) (by omega) (by omega)
        refine ⟨?_, ?_, ?_⟩
        · rw [tilesFrom_cons]
          refine ⟨rfl, ?_⟩
          show tilesFrom (ch * 60 + cmin + c) _
          have heq : ch * 60 + cmin + c = (ch + 1) * 60 + (cmin + c - 60) := by omega
          rw [heq]
          exact ht
        · rw [sumDurations_cons, hs]
          show c + (total - (cm + c)) = total - cm
          omega
        · intro p hp
          rcases List.mem_cons.mp hp with hph | hpr
          · subst hph
            refine ⟨?_, ?_, ?_⟩
            · show 0 < c
              omega
            · show c ≤ 60
              omega
            · show cmin < 60
              exact hmin
          · exact hb p hpr
      · rw [if_neg hover]
        obtain ⟨ht, hs, hb⟩ := IH total (cm + c) ch (cmin + c)
          (by omega) (by omega) (by omega)
        refine ⟨?_, ?_, ?_⟩
        · rw [tilesFrom_cons]
          refine ⟨rfl, ?_⟩
          show tilesFrom (ch * 60 + cmin + c) _
          have heq : ch * 60 + cmin + c = ch * 60 + (cmin + c) := by omega
          rw [heq]
          exact ht
        · rw [sumDurations_cons, hs]
          show c + (total - (cm + c)) = total - cm
          omega
        · intro p hp
          rcases List.mem_cons.mp hp with hph | hpr
          · subst hph
            refine ⟨?_, ?_, ?_⟩
            · show 0 < c
              omega
            · show c ≤ 60
              omega
            · show cmin < 60
              exact hmin
          · exact hb p hpr
    · rw [decomposeHourlyGo, dif_neg hcm]
      refine ⟨trivial, ?_, by simp⟩
      simp only [sumDurations, List.map_nil, List.sum_nil]
      omega

/-- Specialization to `decomposePlanToHourly`. -/
theorem decomposePlanToHourly_spec (plan : Plan) (hmin : plan.startTime.minute < 60) :
    tilesFrom (planStartAbs plan) (decomposePlanToHourly plan) ∧
    sumDurations (decomposePlanToHourly plan) = plan.duration ∧
    ∀ p ∈ decomposePlanToHourly plan,
      0 < p.duration ∧ p.duration ≤ 60 ∧ p.startTime.minute < 60 := by
  have h := decomposeHourlyGo_spec plan plan.duration plan.duration 0
    plan.startTime.hour plan.startTime.minute (by omega) hmin (by omega)
  simpa [decomposePlanToHourly, planStartAbs] using h

/-- Every routine the occupation dispatch can produce consists of plans whose
start minute is a valid minute-of-hour. -/
theorem getDefaultRoutine_minuteOk (occupation : String) :
    ∀ p ∈ getDefaultRoutine occupation, p.startTime.minute < 60 := by
  simp only [getDefaultRoutine]
  split_ifs <;> decide

theorem sumDurations_flatMap (l : List Plan) (f : Plan → List Plan) :
    sumDurations (l.flatMap f) = (l.map fun b => sumDurations (f b)).sum := by
  induction l with
  | nil => simp [sumDurations]
  | cons b rest IH =>
    simp only [List.flatMap_cons, sumDurations, List.map_append, List.sum_append,
      List.map_cons, List.sum_cons] at *
    omega

/-- C2: for every `DailyPlan` produced by `Planner.initializeDailyPlan`, the
hourly chunks decomposed from each broad-stroke plan tile that broad stroke
contiguously with no overlap, every hourly chunk lasts at most 60 minutes,
and the summed hourly durations equal the summed broad-stroke durations. -/
theorem initializeDailyPlan_hourly_invariant (occupation : String) (day : Int) :
    (∀ b ∈ (Planner.initializeDailyPlan occupation day).broadStrokes,
        tilesFrom (planStartAbs b) (decomposePlanToHourly b) ∧
        sumDurations (decomposePlanToHourly b) = b.duration) ∧
    (∀ p ∈ (Planner.initializeDailyPlan occupation day).hourlyPlans, p.duration ≤ 60) ∧
    sumDurations (Planner.initializeDailyPlan occupation day).hourlyPlans =
      sumDurations (Planner.initializeDailyPlan occupation day).broadStrokes := by
  have hbroad : (Planner.initializeDailyPlan occupation day).broadStrokes =
      getDefaultRoutine occupation := rfl
  have hhourly : (Planner.initializeDailyPlan occupation day).hourlyPlans =
      (getDefaultRoutine occupation).flatMap decomposePlanToHourly := rfl
  refine ⟨?_, ?_, ?_⟩
  · intro b hb
    rw [hbroad] at hb
    have hm := getDefaultRoutine_minuteOk occupation b hb
    obtain ⟨ht, hs, _⟩ := decomposePlanToHourly_spec b hm
    exact ⟨ht, hs⟩
  · intro p hp
    rw [hhourly] at hp
    obtain ⟨b, hb, hpb⟩ := List.mem_flatMap.mp hp
    have hm := getDefaultRoutine_minuteOk occupation b hb
    obtain ⟨_, _, hbnd⟩ := decomposePlanToHourly_spec b hm
    exact (hbnd p hpb).2.1
  · rw [hbroad, hhourly, sumDurations_flatMap]
    have : ((getDefaultRoutine occupation).map fun b =>
        sumDurations (decomposePlanToHourly b)) =
        (getDefaultRoutine occupation).map fun b => b.duration := by
      apply List.map_congr_left
      intro b hb
      exact (decomposePlanToHourly_spec b (getDefaultRoutine_minuteOk occupation b hb)).2.1
    rw [this]
    rfl

/-- Witness for C2 at a concrete occupation and broad stroke. -/
theorem initializeDailyPlan_hourly_invariant_witness :
    tilesFrom (planStartAbs (createPlan "Wake up and morning routine" 7 0 60 none))
      (decomposePlanToHourly (createPlan "Wake up and morning routine" 7 0 60 none)) ∧
    sumDurations (decomposePlanToHourly (createPlan "Wake up and morning routine" 7 0 60 none)) =
      (createPlan "Wake up and morning routine" 7 0 60 none).duration :=
  (initializeDailyPlan_hourly_invariant "artist" 1).1
    (createPlan "Wake up and morning routine" 7 0 60 none) (by decide)

/-! ## Detailed decomposition (C1) -/

theorem detailedGo_spec (per : Nat) (loc : Option String) :
    ∀ (acts : List String) (curHour curMin remaining : Nat), curMin < 60 →
      acts.length * min per 15 ≤ remaining →
      tilesFrom (curHour * 60 + curMin) (detailedGo per loc acts curHour curMin remaining) ∧
      sumDurations (detailedGo per loc acts curHour curMin remaining) =
        acts.length * min per 15 ∧
      ∀ p ∈ detailedGo per loc acts curHour curMin remaining, p.duration ≤ 15 := by
  intro acts
  induction acts with
  | nil =>
    intro curHour curMin remaining hmin hrem
    simp [detailedGo, tilesFrom, sumDurations]
  | cons act rest IH =>
    intro curHour curMin remaining hmin hrem
    have hexp : (act :: rest).length * min per 15 =
        rest.length * min per 15 + min per 15 := by
      simp only [List.length_cons]
      ring
    have hstep : min per 15 ≤ remaining := by omega
    have hq : min (min per remaining) 15 = min per 15 := by omega
    have hrem2 : rest.length * min per 15 ≤ remaining - min per 15 := by omega
    rw [detailedGo]
    simp only [hq]
    by_cases hz : min per 15 = 0
    · rw [if_pos hz]
      have := IH curHour curMin remaining hmin (by omega)
      rw [hexp]
      simpa [hz] using this
    · rw [if_neg hz]
      have hq15 : min per 15 ≤ 15 := by omega
      by_cases hover : curMin + min per 15 ≥ 60
      · rw [if_pos hover]
        obtain ⟨ht, hs, hb⟩ := IH (curHour + 1) (curMin + min per 15 - 60)
          (remaining - min per 15) (by omega) hrem2
        refine ⟨?_, ?_, ?_⟩
        · rw [tilesFrom_cons]
          refine ⟨rfl, ?_⟩
          show tilesFrom (curHour * 60 + curMin + min per 15) _
          have heq : curHour * 60 + curMin + min per 15 =
              (curHour + 1) * 60 + (curMin + min per 15 - 60) := by omega
          rw [heq]
          exact ht
        · rw [sumDurations_cons, hs]
          show min per 15 + rest.length * min per 15 = (act :: rest).length * min per 15
          omega
        · intro p hp
          rcases List.mem_cons.mp hp with hph | hpr
          · subst hph
            exact hq15
          · exact hb p hpr
      · rw [if_neg hover]
        obtain ⟨ht, hs, hb⟩ := IH curHour (curMin + min per 15)
          (remaining - min per 15) (by omega) hrem2
        refine ⟨?_, ?_, ?_⟩
        · rw [tilesFrom_cons]
          refine ⟨rfl, ?_⟩
          show tilesFrom (curHour * 60 + curMin + min per 15) _
          have heq : curHour * 60 + curMin + min per 15 =
              curHour * 60 + (curMin + min per 15) := by omega
          rw [heq]
          exact ht
        · rw [sumDurations_cons, hs]
          show min per 15 + rest.length * min per 15 = (act :: rest).length * min per 15
          omega
        · intro p hp
          rcases List.mem_cons.mp hp with hph | hpr
          · subst hph
            exact hq15
          · exact hb p hpr

/-- C1 (amended): the detailed plans generated from an hourly plan are
contiguous with no gap or overlap among themselves, starting at the parent
plan's start time, each lasting at most 15 minutes; but their summed
durations equal `n * min (duration / n) 15` (where `n` is the number of
activity templates), which is at most — and in general strictly less
than — the parent plan's duration. -/
theorem decomposePlanToDetailed_tiles_front (plan : Plan)
    (hmin : plan.startTime.minute < 60) :
    tilesFrom (planStartAbs plan) (decomposePlanToDetailed plan) ∧
    sumDurations (decomposePlanToDetailed plan) =
      (getDetailedActivities plan.description).length *
        min (plan.duration / (getDetailedActivities plan.description).length) 15 ∧
    (getDetailedActivities plan.description).length *
        min (plan.duration / (getDetailedActivities plan.description).length) 15 ≤
      plan.duration ∧
    ∀ p ∈ decomposePlanToDetailed plan, p.duration ≤ 15 := by
  set acts := getDetailedActivities plan.description with hacts
  have hle : acts.length * min (plan.duration / acts.length) 15 ≤ plan.duration := by
    have h1 : acts.length * (plan.duration / acts.length) ≤ plan.duration := by
      rw [Nat.mul_comm]
      exact Nat.div_mul_le_self plan.duration acts.length
    have h2 : acts.length * min (plan.duration / acts.length) 15 ≤
        acts.length * (plan.duration / acts.length) :=
      Nat.mul_le_mul_left acts.length (Nat.min_le_left _ _)
    omega
  obtain ⟨ht, hs, hb⟩ := detailedGo_spec (plan.duration / acts.length) plan.location acts
    plan.startTime.hour plan.startTime.minute plan.duration hmin hle
  exact ⟨ht, hs, hle, hb⟩

/-- Counterexample to C1 as stated: the hourly plan produced by decomposing
a 50-minute broad stroke "Idle" is a single 50-minute hourly chunk, but its
detailed decomposition (three default activity templates, 15 minutes each)
sums to 45 minutes, not 50 — the detailed plans do not tile the parent. -/
theorem decomposePlanToDetailed_gap_counterexample :
    decomposePlanToHourly idleBroadPlan = [idleHourlyPlan] ∧
    sumDurations (decomposePlanToDetailed idleHourlyPlan) = 45 ∧
    ¬ sumDurations (decomposePlanToDetailed idleHourlyPlan) = idleHourlyPlan.duration := by
  refine ⟨?_, by decide, by decide⟩
  show decomposeHourlyGo idleBroadPlan 50 0 9 0 = [idleHourlyPlan]
  simp [decomposeHourlyGo, hourlyChunkSize, idleBroadPlan, idleHourlyPlan, createPlan]
  decide

/-- Witness for the amended C1 at the counterexample's hourly plan. -/
theorem decomposePlanToDetailed_tiles_front_witness :
    tilesFrom (planStartAbs idleHourlyPlan) (decomposePlanToDetailed idleHourlyPlan) ∧
    sumDurations (decomposePlanToDetailed idleHourlyPlan) = 45 :=
  ⟨(decomposePlanToDetailed_tiles_front idleHourlyPlan (by decide)).1, by decide⟩

/-! ## Current-plan totality (C3) -/

/-- C3: `getCurrentPlan` is total over all time covered by broad strokes:
whenever the minute-of-day lies in the half-open interval of some broad
stroke, a plan is returned (the tiers are scanned detailed, then hourly,
then broad, each for the first covering plan); and in the example with
broad strokes "Walk to work" (08:00, 30m) and "Research" (08:30, 210m),
the plan at 08:31 is "Research". -/
theorem getCurrentPlan_total_on_broad (dp : DailyPlan) (t : GameTime)
    (hcov : ∃ b ∈ dp.broadStrokes,
      (planStartAbs b : Rat) ≤ (t.hour : Rat) * 60 + t.minute ∧
      (t.hour : Rat) * 60 + t.minute < (planStartAbs b : Rat) + (b.duration : Rat)) :
    (getCurrentPlan dp t).isSome ∧
    getCurrentPlan exampleDailyPlan
        { day := 1, hour := 8, minute := 31, speed := 1, isPaused := false } =
      some examplePlanResearch := by
  constructor
  · simp only [getCurrentPlan]
    have hfind : (dp.broadStrokes.find? (planCoversAt ((t.hour : Rat) * 60 + t.minute))).isSome := by
      rw [List.find?_isSome]
      obtain ⟨b, hb, h1, h2⟩ := hcov
      refine ⟨b, hb, ?_⟩
      simp only [planCoversAt, decide_eq_true_eq]
      exact ⟨h1, h2⟩
    cases hd : dp.detailedPlans.find? (planCoversAt ((t.hour : Rat) * 60 + t.minute)) with
    | some p => simp
    | none =>
      cases hh : dp.hourlyPlans.find? (planCoversAt ((t.hour : Rat) * 60 + t.minute)) with
      | some p => simp
      | none => exact hfind
  · norm_num [getCurrentPlan, exampleDailyPlan, examplePlanWalk, examplePlanResearch, createPlan,
      planCoversAt, planStartAbs, List.find?]

/-- Witness for C3: the 08:31 time is covered by the example's broad
strokes, so a plan is returned there. -/
theorem getCurrentPlan_total_on_broad_witness :
    (getCurrentPlan exampleDailyPlan
      { day := 1, hour := 8, minute := 31, speed := 1, isPaused := false }).isSome :=
  (getCurrentPlan_total_on_broad exampleDailyPlan
    { day := 1, hour := 8, minute := 31, speed := 1, isPaused := false }
    ⟨examplePlanResearch, by decide, by norm_num [examplePlanResearch, planStartAbs, createPlan]⟩).1

/-! ## TimeSystem (C4, C10) -/

/-- A tick at speed 1 that stays within the hour just increments the minute
and publishes exactly the tick event. -/
theorem tick_noCross (d h : Int) (m : Nat) (hh : h < 24) (hm : m + 1 < 60) :
    TimeSystem.tick { day := d, hour := h, minute := (m : Rat), speed := 1, isPaused := false } =
      ({ day := d, hour := h, minute := ((m + 1 : Nat) : Rat), speed := 1, isPaused := false },
       [TimeEvent.tickEv
         { day := d, hour := h, minute := ((m + 1 : Nat) : Rat), speed := 1, isPaused := false }
         1]) := by
  have hcast : ((m + 1 : Nat) : Rat) = (m : Rat) + 1 := by push_cast; ring
  have hlt : ((m : Rat) + 1) < 60 := by
    rw [← hcast]
    exact_mod_cast hm
  have hcond : ¬ (60 : Rat) ≤ (m : Rat) + 1 := by linarith
  rw [hcast]
  simp [TimeSystem.tick, hcond, not_le.mpr hh]

/-- The tick crossing from day 1, 23:59 publishes exactly one hour-changed
event, one day-changed event and the tick event, and lands on day 2, 00:00. -/
theorem tick_cross_2359 :
    TimeSystem.tick { day := 1, hour := 23, minute := 59, speed := 1, isPaused := false } =
      ({ day := 2, hour := 0, minute := 0, speed := 1, isPaused := false },
       [TimeEvent.hourChanged 23 0 2, TimeEvent.dayChanged 1 2,
        TimeEvent.tickEv { day := 2, hour := 0, minute := 0, speed := 1, isPaused := false } 1]) := by
  have h1 : (59 : Rat) + 1 = 60 := by norm_num
  have h2 : ((60 : Rat) / 60) = 1 := by norm_num
  have h3 : (⌊(1 : Rat)⌋ : Int) = 1 := by norm_num
  norm_num [TimeSystem.tick, jsModQ, ratTrunc, jsRem, jsQuot, Int.fdiv, h1, h2, h3]
  decide

theorem tickN_succ (t : GameTime) (n : Nat) :
    TimeSystem.tickN t (n + 1) =
      ((TimeSystem.tickN (TimeSystem.tick t).1 n).1,
       (TimeSystem.tick t).2 ++ (TimeSystem.tickN (TimeSystem.tick t).1 n).2) := rfl

theorem tickN_append (t : GameTime) (a b : Nat) :
    TimeSystem.tickN t (a + b) =
      ((TimeSystem.tickN (TimeSystem.tickN t a).1 b).1,
       (TimeSystem.tickN t a).2 ++ (TimeSystem.tickN (TimeSystem.tickN t a).1 b).2) := by
  induction a generalizing t with
  | zero => simp [TimeSystem.tickN]
  | succ n IH =>
    have hadd : n + 1 + b = (n + b) + 1 := by omega
    rw [hadd, tickN_succ, tickN_succ, IH]
    simp [TimeSystem.tickN]

/-- A run of `k` speed-1 ticks staying inside one hour advances the minute
by `k` and publishes only tick events. -/
theorem tickN_within_hour (d h : Int) (hh : h < 24) :
    ∀ (k m : Nat), m + k < 60 →
      (TimeSystem.tickN { day := d, hour := h, minute := (m : Rat), speed := 1, isPaused := false } k).1 =
        { day := d, hour := h, minute := ((m + k : Nat) : Rat), speed := 1, isPaused := false } ∧
      (TimeSystem.tickN { day := d, hour := h, minute := (m : Rat), speed := 1, isPaused := false } k).2.countP TimeEvent.isTickEv = k ∧
      (TimeSystem.tickN { day := d, hour := h, minute := (m : Rat), speed := 1, isPaused := false } k).2.countP TimeEvent.isHourChanged = 0 ∧
      (TimeSystem.tickN { day := d, hour := h, minute := (m : Rat), speed := 1, isPaused := false } k).2.countP TimeEvent.isDayChanged = 0 := by
  intro k
  induction k with
  | zero =>
    intro m hm
    simp [TimeSystem.tickN]
  | succ n IH =>
    intro m hm
    obtain ⟨hs, hc1, hc2, hc3⟩ := IH (m + 1) (by omega)
    have hmk : m + 1 + n = m + (n + 1) := by omega
    rw [hmk] at hs
    rw [tickN_succ, tick_noCross d h m hh (by omega)]
    dsimp only
    refine ⟨hs, ?_, ?_, ?_⟩
    · rw [List.countP_append, hc1]
      simp [TimeEvent.isTickEv, List.countP_cons]
      omega
    · rw [List.countP_append, hc2]
      simp [TimeEvent.isHourChanged, List.countP_cons]
    · rw [List.countP_append, hc3]
      simp [TimeEvent.isDayChanged, List.countP_cons]

/-- C4: starting from day 1, 23:31 at speed 1 and not paused, 60 ticks land
exactly on day 2, 00:31, and across those calls exactly one day-changed,
exactly one hour-changed, and sixty tick events are published. -/
theorem tick_sixty_from_day1_2331 :
    (TimeSystem.tickN { day := 1, hour := 23, minute := 31, speed := 1, isPaused := false } 60).1 =
      { day := 2, hour := 0, minute := 31, speed := 1, isPaused := false } ∧
    (TimeSystem.tickN { day := 1, hour := 23, minute := 31, speed := 1, isPaused := false } 60).2.countP
      TimeEvent.isDayChanged = 1 ∧
    (TimeSystem.tickN { day := 1, hour := 23, minute := 31, speed := 1, isPaused := false } 60).2.countP
      TimeEvent.isHourChanged = 1 ∧
    (TimeSystem.tickN { day := 1, hour := 23, minute := 31, speed := 1, isPaused := false } 60).2.countP
      TimeEvent.isTickEv = 60 := by
  have e1 := tickN_within_hour 1 23 (by norm_num) 28 31 (by norm_num)
  have e3 := tickN_within_hour 2 0 (by norm_num) 31 0 (by norm_num)
  have hc31 : ((31 : Nat) : Rat) = (31 : Rat) := by norm_num
  have hc59 : ((31 + 28 : Nat) : Rat) = (59 : Rat) := by norm_num
  have hc0 : ((0 : Nat) : Rat) = (0 : Rat) := by norm_num
  have hc31b : ((0 + 31 : Nat) : Rat) = (31 : Rat) := by norm_num
  rw [hc31, hc59] at e1
  rw [hc0, hc31b] at e3
  obtain ⟨s1, c1t, c1h, c1d⟩ := e1
  obtain ⟨s3, c3t, c3h, c3d⟩ := e3
  have h60 : (60 : Nat) = 28 + 32 := by norm_num
  rw [h60, tickN_append, s1, tickN_succ, tick_cross_2359]
  dsimp only
  rw [s3]
  refine ⟨rfl, ?_, ?_, ?_⟩
  · rw [List.countP_append, List.countP_append, c1d, c3d]
    simp [List.countP_cons, TimeEvent.isDayChanged]
  · rw [List.countP_append, List.countP_append, c1h, c3h]
    simp [List.countP_cons, TimeEvent.isHourChanged]
  · rw [List.countP_append, List.countP_append, c1t, c3t]
    simp [List.countP_cons, TimeEvent.isTickEv]

/-- C10: when the clock is paused, `tick()` is a complete no-op: the time
state (day, hour, minute, speed, pause flag) is unchanged and no event of
any kind is published. -/
theorem tick_paused_noop (t : GameTime) (h : t.isPaused = true) :
    TimeSystem.tick t = (t, []) := by
  simp [TimeSystem.tick, h]

/-- Witness for C10 at a concrete paused state. -/
theorem tick_paused_noop_witness :
    TimeSystem.tick { day := 1, hour := 8, minute := 0, speed := 1, isPaused := true } =
      ({ day := 1, hour := 8, minute := 0, speed := 1, isPaused := true }, []) :=
  tick_paused_noop { day := 1, hour := 8, minute := 0, speed := 1, isPaused := true } rfl

/-! ## Memory importance (C8) -/

theorem estimateImportance_bounds (content : String) :
    1 ≤ estimateImportance content ∧ estimateImportance content ≤ 10 := by
  have key : ∀ r : Int, (1 : Rat) ≤ ((max 1 (min 10 r) : Int) : Rat) ∧
      ((max 1 (min 10 r) : Int) : Rat) ≤ 10 := by
    intro r
    constructor
    · exact_mod_cast le_max_left 1 (min 10 r)
    · have h : max 1 (min 10 r) ≤ (10 : Int) := max_le (by norm_num) (min_le_left _ _)
      exact_mod_cast h
  simp only [estimateImportance]
  exact key _

/-- C8 (amended): memories whose importance is estimated from the content
always carry an importance clamped to 1..10; a caller-supplied importance is
stored unchanged (so the 1..10 bound holds only for in-range inputs). -/
theorem createMemory_importance (content : String) (type : MemoryType) (now : Rat) :
    (1 ≤ (createMemory content type now none none none none).importance ∧
     (createMemory content type now none none none none).importance ≤ 10) ∧
    ∀ v : Rat, (createMemory content type now (some v) none none none).importance = v := by
  constructor
  · exact estimateImportance_bounds content
  · intro v
    rfl

/-- Counterexample to C8 as stated: a caller-supplied importance of 11 is
stored without clamping, so the produced memory's importance is 11 > 10. -/
theorem createMemory_importance_unclamped_counterexample :
    (createMemory "hello" MemoryType.observation 0 (some 11) none none none).importance = 11 ∧
    ¬ (createMemory "hello" MemoryType.observation 0 (some 11) none none none).importance ≤ 10 := by
  constructor
  · rfl
  · norm_num [createMemory]

/-! ## Contract violations resolve safely (C9) -/

/-- C9: ending a conversation id absent from the registry leaves the whole
manager state (registry and active pointer) unchanged and publishes nothing,
and retrieving from an empty memory stream returns the empty list for every
query, elapsed-hours value, weights and topK. -/
theorem contract_violations_resolve_safely :
    (∀ (st : ConversationManagerState) (conversationId : String) (now : Rat),
        mapGet st.conversations conversationId = none →
        ConversationManager.endConversation st conversationId now = (st, [])) ∧
    (∀ (query : String) (gameHoursPassed : Real) (weights : RetrievalWeights) (topK : Nat),
        MemoryStream.retrieve [] query gameHoursPassed weights topK = []) := by
  constructor
  · intro st conversationId now h
    unfold ConversationManager.endConversation
    rw [h]
  · intro query gameHoursPassed weights topK
    simp [MemoryStream.retrieve]

/-- Witness for C9 at a concrete empty manager and empty stream. -/
theorem contract_violations_resolve_safely_witness :
    ConversationManager.endConversation
        { conversations := [], activeConversation := none } "missing" 0 =
      ({ conversations := [], activeConversation := none }, []) ∧
    MemoryStream.retrieve [] "anything" 24
      { recency := 1, importance := 1, relevance := 1 } 10 = [] :=
  ⟨contract_violations_resolve_safely.1
      { conversations := [], activeConversation := none } "missing" 0 rfl,
   contract_violations_resolve_safely.2 "anything" 24
      { recency := 1, importance := 1, relevance := 1 } 10⟩

/-! ## Memory retrieval ranking (C5) -/

theorem normalizeScores_pair_same (x : Real) : normalizeScores [x, x] = [1, 1] := by
  simp [normalizeScores, minScore, maxScore]

theorem normalizeScores_pair_gt {a b : Real} (h : b < a) :
    normalizeScores [a, b] = [1, 0] := by
  have hmn : minScore [a, b] = b := by
    simp [minScore, min_eq_right (le_of_lt h)]
  have hmx : maxScore [a, b] = a := by
    simp [maxScore, max_eq_left (le_of_lt h)]
  have hne : ¬ a = b := ne_of_gt h
  simp only [normalizeScores, hmn, hmx, if_neg hne]
  have hsub : a - b ≠ 0 := sub_ne_zero.mpr hne
  simp [div_self hsub]

theorem normalizeScores_pair_lt {a b : Real} (h : a < b) :
    normalizeScores [a, b] = [0, 1] := by
  have hmn : minScore [a, b] = a := by
    simp [minScore, min_eq_left (le_of_lt h)]
  have hmx : maxScore [a, b] = b := by
    simp [maxScore, max_eq_right (le_of_lt h)]
  have hne : ¬ b = a := ne_of_gt h
  simp only [normalizeScores, hmn, hmx, if_neg hne]
  have hsub : b - a ≠ 0 := sub_ne_zero.mpr hne
  simp [div_self hsub]

/-- C5: for a stream holding exactly two memories, `retrieve` with equal
positive weights, topK = 1, and a query giving both memories equal relevance
(recency is always equal, since it depends only on the elapsed-hours
argument) returns the memory with the higher importance; on a full tie it
returns the memory that was inserted first. -/
theorem retrieve_two_memories_importance (m1 m2 : Memory) (query : String)
    (gameHoursPassed : Real) (w : Real) (hw : 0 < w)
    (hrel : calculateRelevance m1 query = calculateRelevance m2 query) :
    (m2.importance < m1.importance →
      MemoryStream.retrieve [m1, m2] query gameHoursPassed
        { recency := w, importance := w, relevance := w } 1 = [m1]) ∧
    (m1.importance < m2.importance →
      MemoryStream.retrieve [m1, m2] query gameHoursPassed
        { recency := w, importance := w, relevance := w } 1 = [m2]) ∧
    (m1.importance = m2.importance →
      MemoryStream.retrieve [m1, m2] query gameHoursPassed
        { recency := w, importance := w, relevance := w } 1 = [m1]) := by
  simp only [MemoryStream.retrieve, List.isEmpty_cons, Bool.false_eq_true, if_false,
    List.map_cons, List.map_nil, calculateRecency, hrel, normalizeScores_pair_same]
  refine ⟨?_, ?_, ?_⟩
  · intro hlt
    have hcast : ((m2.importance : Real) / 10) < ((m1.importance : Real) / 10) := by
      have : (m2.importance : Real) < (m1.importance : Real) := by exact_mod_cast hlt
      linarith
    rw [normalizeScores_pair_gt hcast]
    simp only [combineScores, List.zip_cons_cons, List.zip_nil_right, sortByScoreDesc,
      insertByScoreDesc]
    rw [if_pos (by nlinarith : w * 1 + w * 0 + w * 1 ≤ w * 1 + w * 1 + w * 1)]
    simp
  · intro hlt
    have hcast : ((m1.importance : Real) / 10) < ((m2.importance : Real) / 10) := by
      have : (m1.importance : Real) < (m2.importance : Real) := by exact_mod_cast hlt
      linarith
    rw [normalizeScores_pair_lt hcast]
    simp only [combineScores, List.zip_cons_cons, List.zip_nil_right, sortByScoreDesc,
      insertByScoreDesc]
    rw [if_neg (by nlinarith : ¬ w * 1 + w * 1 + w * 1 ≤ w * 1 + w * 0 + w * 1)]
    simp
  · intro heq
    have hcast : ((m1.importance : Real) / 10) = ((m2.importance : Real) / 10) := by
      rw [heq]
    rw [hcast, normalizeScores_pair_same]
    simp only [combineScores, List.zip_cons_cons, List.zip_nil_right, sortByScoreDesc,
      insertByScoreDesc]
    rw [if_pos (le_refl _)]
    simp

theorem witness_relevance_eq :
    calculateRelevance witnessMemoryA "find" = calculateRelevance witnessMemoryB "find" := by
  have hA : (longWords witnessMemoryA.content).length = 0 := by decide
  have hB : (longWords witnessMemoryB.content).length = 0 := by decide
  simp [calculateRelevance, hA, hB]

/-- Witness for C5: with importances 7 and 3 and unit weights, the
higher-importance memory is returned. -/
theorem retrieve_two_memories_importance_witness :
    MemoryStream.retrieve [witnessMemoryA, witnessMemoryB] "find" 24
      { recency := 1, importance := 1, relevance := 1 } 1 = [witnessMemoryA] :=
  (retrieve_two_memories_importance witnessMemoryA witnessMemoryB "find" 24 1 one_pos
    witness_relevance_eq).1 (by norm_num [witnessMemoryA, witnessMemoryB, createMemory])

/-! ## World serialization round trip (C7) -/

theorem Character.serialize_ofData (d : CharacterData) :
    (Character.ofData d).serialize = d := rfl

theorem Character.initializeDailyPlan_id (c : Character) (day : Int) :
    (c.initializeDailyPlan day).data.id = c.data.id := rfl

theorem Character.serialize_id (c : Character) :
    c.serialize.id = c.data.id := rfl

theorem mapSet_keys_nodup {κ α : Type} [BEq κ] [LawfulBEq κ] {m : List (κ × α)} (k : κ) (v : α)
    (h : (m.map Prod.fst).Nodup) : ((mapSet m k v).map Prod.fst).Nodup := by
  unfold mapSet
  by_cases hany : m.any (fun kv => kv.1 == k) = true
  · rw [if_pos hany]
    have : ((m.map (fun kv => if kv.1 == k then (k, v) else kv)).map Prod.fst) =
        m.map Prod.fst := by
      rw [List.map_map]
      apply List.map_congr_left
      intro kv _
      by_cases hk : kv.1 == k
      · simp only [Function.comp, hk, if_pos]
        exact (eq_of_beq hk).symm
      · simp [Function.comp, hk]
    rw [this]
    exact h
  · rw [if_neg hany]
    rw [List.map_append, List.nodup_append]
    refine ⟨h, by simp, ?_⟩
    intro a ha hb
    simp only [List.map_cons, List.map_nil, List.mem_singleton] at hb
    subst hb
    obtain ⟨kv, hkv, hfst⟩ := List.mem_map.mp ha
    have hk : m.any (fun kv => kv.1 == a) = true := by
      rw [List.any_eq_true]
      exact ⟨kv, hkv, by simp [hfst]⟩
    exact hany hk

theorem mapSet_key_id {κ α : Type} [BEq κ] [LawfulBEq κ] (idOf : α → κ) {m : List (κ × α)} (v : α)
    (h : ∀ kv ∈ m, kv.1 = idOf kv.2) :
    ∀ kv ∈ mapSet m (idOf v) v, kv.1 = idOf kv.2 := by
  unfold mapSet
  by_cases hany : m.any (fun kv => kv.1 == idOf v) = true
  · rw [if_pos hany]
    intro kv hkv
    obtain ⟨kv0, hkv0, heq⟩ := List.mem_map.mp hkv
    by_cases hk : kv0.1 == idOf v
    · rw [if_pos hk] at heq
      subst heq
      rfl
    · rw [if_neg hk] at heq
      subst heq
      exact h kv0 hkv0
  · rw [if_neg hany]
    intro kv hkv
    rcases List.mem_append.mp hkv with hin | hin
    · exact h kv hin
    · rw [List.mem_singleton] at hin
      subst hin
      rfl

theorem mapGet_cons {κ α : Type} [BEq κ] (x : κ × α) (m : List (κ × α)) (k : κ) :
    mapGet (x :: m) k = if x.1 == k then some x.2 else mapGet m k := by
  by_cases h : x.1 == k
  · simp [mapGet, List.find?_cons_of_pos, h]
  · simp only [Bool.not_eq_true] at h
    simp [mapGet, List.find?_cons_of_neg, h]

theorem mapGet_replace_ne {κ α : Type} [BEq κ] [LawfulBEq κ]
    (m : List (κ × α)) (k k2 : κ) (v : α) (h : ¬ k2 = k) :
    mapGet (m.map (fun kv => if kv.1 == k then (k, v) else kv)) k2 = mapGet m k2 := by
  induction m with
  | nil => rfl
  | cons a rest IH =>
    rw [List.map_cons]
    by_cases hk : a.1 == k
    · rw [if_pos hk]
      have h1 : ¬ (k == k2) = true := by
        simp only [beq_iff_eq]
        intro hcon
        exact h hcon.symm
      have h2 : ¬ (a.1 == k2) = true := by
        simp only [beq_iff_eq] at hk ⊢
        rw [hk]
        intro hcon
        exact h hcon.symm
      rw [mapGet_cons, mapGet_cons]
      simp only
      rw [if_neg h1, if_neg h2]
      exact IH
    · rw [if_neg hk]
      rw [mapGet_cons, mapGet_cons]
      by_cases h2 : a.1 == k2
      · rw [if_pos h2, if_pos h2]
      · rw [if_neg h2, if_neg h2]
        exact IH

theorem mapGet_replace_self {κ α : Type} [BEq κ] [LawfulBEq κ]
    (m : List (κ × α)) (k : κ) (v : α) (h : m.any (fun kv => kv.1 == k) = true) :
    mapGet (m.map (fun kv => if kv.1 == k then (k, v) else kv)) k = some v := by
  induction m with
  | nil => simp at h
  | cons a rest IH =>
    rw [List.map_cons]
    by_cases hk : a.1 == k
    · rw [if_pos hk, mapGet_cons]
      simp
    · rw [if_neg hk]
      rw [mapGet_cons, if_neg hk]
      apply IH
      rcases List.any_eq_true.mp h with ⟨kv, hkv, hbeq⟩
      rcases List.mem_cons.mp hkv with h1 | h1
      · subst h1
        exact absurd hbeq hk
      · exact List.any_eq_true.mpr ⟨kv, h1, hbeq⟩

theorem mapGet_append_single_self {κ α : Type} [BEq κ] [LawfulBEq κ]
    (m : List (κ × α)) (k : κ) (v : α) (h : ¬ m.any (fun kv => kv.1 == k) = true) :
    mapGet (m ++ [(k, v)]) k = some v := by
  induction m with
  | nil => simp [mapGet_cons]
  | cons a rest IH =>
    rw [List.cons_append, mapGet_cons]
    have hk : ¬ (a.1 == k) = true := by
      intro hcon
      exact h (List.any_eq_true.mpr ⟨a, List.mem_cons_self a rest, by simpa using hcon⟩)
    rw [if_neg hk]
    apply IH
    intro hcon
    rcases List.any_eq_true.mp hcon with ⟨kv, hkv, hbeq⟩
    exact h (List.any_eq_true.mpr ⟨kv, List.mem_cons_of_mem a hkv, hbeq⟩)

theorem mapGet_append_single_ne {κ α : Type} [BEq κ]
    (m : List (κ × α)) (k k2 : κ) (v : α) (h : ¬ (k == k2) = true) :
    mapGet (m ++ [(k, v)]) k2 = mapGet m k2 := by
  induction m with
  | nil =>
    simp only [List.nil_append, mapGet_cons, if_neg h]
  | cons a rest IH =>
    rw [List.cons_append, mapGet_cons, mapGet_cons]
    by_cases h2 : a.1 == k2
    · rw [if_pos h2, if_pos h2]
    · rw [if_neg h2, if_neg h2]
      exact IH

theorem mapGet_mapSet_self {κ α : Type} [BEq κ] [LawfulBEq κ]
    (m : List (κ × α)) (k : κ) (v : α) : mapGet (mapSet m k v) k = some v := by
  unfold mapSet
  by_cases hany : m.any (fun kv => kv.1 == k) = true
  · rw [if_pos hany]
    exact mapGet_replace_self m k v hany
  · rw [if_neg hany]
    exact mapGet_append_single_self m k v hany

theorem mapGet_mapSet_ne {κ α : Type} [BEq κ] [LawfulBEq κ]
    (m : List (κ × α)) (k k2 : κ) (v : α) (h : ¬ k2 = k) :
    mapGet (mapSet m k v) k2 = mapGet m k2 := by
  unfold mapSet
  by_cases hany : m.any (fun kv => kv.1 == k) = true
  · rw [if_pos hany]
    exact mapGet_replace_ne m k k2 v h
  · rw [if_neg hany]
    apply mapGet_append_single_ne
    simp only [beq_iff_eq]
    intro hcon
    exact h hcon.symm

theorem mapGet_some_key_mem {κ α : Type} [BEq κ] [LawfulBEq κ]
    {m : List (κ × α)} {k : κ} {v : α} (h : mapGet m k = some v) :
    k ∈ m.map Prod.fst := by
  unfold mapGet at h
  rcases hf : m.find? (fun kv => kv.1 == k) with _ | kv
  · rw [hf] at h
    simp at h
  · have := List.find?_some hf
    have hmem := List.mem_of_find?_eq_some hf
    simp only [beq_iff_eq] at this
    exact this ▸ List.mem_map_of_mem Prod.fst hmem

theorem foldl_mapSet_fresh {α β : Type} (key : β → String) (val : β → α) :
    ∀ (ds : List β) (m : List (String × α)),
      (ds.map key).Nodup → (∀ d ∈ ds, key d ∉ m.map Prod.fst) →
      ds.foldl (fun acc d => mapSet acc (key d) (val d)) m =
        m ++ ds.map (fun d => (key d, val d)) := by
  intro ds
  induction ds with
  | nil =>
    intro m _ _
    simp
  | cons d rest IH =>
    intro m hnodup hfresh
    have hnotin : key d ∉ m.map Prod.fst := hfresh d (List.mem_cons_self d rest)
    have hany : ¬ m.any (fun kv => kv.1 == key d) = true := by
      rw [List.any_eq_true]
      rintro ⟨kv, hkv, hbeq⟩
      exact hnotin (List.mem_map.mpr ⟨kv, hkv, eq_of_beq hbeq⟩)
    rw [List.foldl_cons]
    show (rest.foldl (fun acc d => mapSet acc (key d) (val d)) (mapSet m (key d) (val d))) = _
    rw [show mapSet m (key d) (val d) = m ++ [(key d, val d)] by
      unfold mapSet
      rw [if_neg hany]]
    rw [IH (m ++ [(key d, val d)]) (List.Nodup.of_cons hnodup) ?_]
    · simp
    · intro d2 hd2
      rw [List.map_append, List.mem_append]
      rintro (hin | hin)
      · exact hfresh d2 (List.mem_cons_of_mem d hd2) hin
      · simp only [List.map_cons, List.map_nil, List.mem_singleton] at hin
        have hmap : (key d :: rest.map key).Nodup := hnodup
        rw [List.nodup_cons] at hmap
        exact hmap.1 (hin ▸ List.mem_map_of_mem key hd2)

theorem characterManager_roundtrip (st : CharacterManagerState)
    (hnodup : (st.characters.map Prod.fst).Nodup)
    (hid : ∀ kv ∈ st.characters, kv.1 = kv.2.data.id) :
    CharacterManager.serialize
        (CharacterManager.deserialize (CharacterManager.serialize st)) =
      CharacterManager.serialize st := by
  unfold CharacterManager.deserialize
  have hkeys : (CharacterManager.serialize st).map (fun d => d.id) =
      st.characters.map Prod.fst := by
    unfold CharacterManager.serialize
    rw [List.map_map]
    apply List.map_congr_left
    intro kv hkv
    exact (hid kv hkv).symm
  have hfold := foldl_mapSet_fresh (fun d : CharacterData => d.id) Character.ofData
    (CharacterManager.serialize st) [] (by rw [hkeys]; exact hnodup) (by simp)
  rw [hfold]
  unfold CharacterManager.serialize
  simp only [List.nil_append, List.map_map]
  apply List.map_congr_left
  intro d _
  rfl

theorem charAdd_fold_invariant (f : CharacterTemplate → Character) :
    ∀ (ts : List CharacterTemplate) (st : CharacterManagerState),
      ((st.characters.map Prod.fst).Nodup ∧ ∀ kv ∈ st.characters, kv.1 = kv.2.data.id) →
      (((ts.foldl (fun st t => CharacterManager.add st (f t)) st).characters.map Prod.fst).Nodup ∧
       ∀ kv ∈ (ts.foldl (fun st t => CharacterManager.add st (f t)) st).characters,
         kv.1 = kv.2.data.id) := by
  intro ts
  induction ts with
  | nil =>
    intro st h
    exact h
  | cons t rest IH =>
    intro st h
    rw [List.foldl_cons]
    apply IH
    unfold CharacterManager.add
    dsimp only
    exact ⟨mapSet_keys_nodup _ _ h.1, mapSet_key_id (fun c => c.data.id) (f t) h.2⟩

theorem initializeDailyPlans_invariant (st : CharacterManagerState) (day : Int)
    (h1 : (st.characters.map Prod.fst).Nodup)
    (h2 : ∀ kv ∈ st.characters, kv.1 = kv.2.data.id) :
    (((CharacterManager.initializeDailyPlans st day).characters.map Prod.fst).Nodup ∧
     ∀ kv ∈ (CharacterManager.initializeDailyPlans st day).characters,
       kv.1 = kv.2.data.id) := by
  unfold CharacterManager.initializeDailyPlans
  constructor
  · rw [List.map_map]
    have hcomp : (Prod.fst ∘ fun kv : String × Character =>
        (kv.1, kv.2.initializeDailyPlan day)) = Prod.fst := rfl
    rw [hcomp]
    exact h1
  · intro kv hkv
    obtain ⟨kv0, hkv0, heq⟩ := List.mem_map.mp hkv
    subst heq
    exact h2 kv0 hkv0

theorem fromTemplate_characters_invariant (template : WorldTemplate) (now : Rat)
    (lastInteractionOf : String → Rat) :
    (((World.fromTemplate template now lastInteractionOf).characters.characters.map
        Prod.fst).Nodup ∧
     ∀ kv ∈ (World.fromTemplate template now lastInteractionOf).characters.characters,
       kv.1 = kv.2.data.id) := by
  unfold World.fromTemplate World.addToLog
  dsimp only
  obtain ⟨h1, h2⟩ := charAdd_fold_invariant
    (fun t => createCharacterFromTemplate t (template.spriteGenerator t.color t.id)
      now lastInteractionOf)
    template.characters { characters := [] } (by constructor <;> simp)
  exact initializeDailyPlans_invariant _ _ h1 h2

theorem fromTemplate_conversations (template : WorldTemplate) (now : Rat)
    (lastInteractionOf : String → Rat) :
    (World.fromTemplate template now lastInteractionOf).conversations =
      { conversations := [], activeConversation := none } := rfl

/-- C7: for a world freshly constructed from a template, `serialize()`
immediately followed by `loadState()` reproduces an observably identical
`WorldState`: a subsequent `serialize()` (at the same wall-clock instant,
which is what "immediately" provides) yields the very same snapshot —
config, time, every character snapshot (memory stream, importance
accumulator and daily plan included), conversations, environment tree,
diffusion log, simulation log and timestamps all round-trip. -/
theorem world_serialize_loadState_roundtrip (template : WorldTemplate)
    (now tSer : Rat) (lastInteractionOf : String → Rat) :
    ((((World.fromTemplate template now lastInteractionOf).serialize tSer).2.loadState
        ((World.fromTemplate template now lastInteractionOf).serialize tSer).1).serialize tSer).1 =
      ((World.fromTemplate template now lastInteractionOf).serialize tSer).1 := by
  obtain ⟨h1, h2⟩ := fromTemplate_characters_invariant template now lastInteractionOf
  simp only [World.serialize, World.loadState]
  rw [WorldState.mk.injEq]
  refine ⟨rfl, rfl, ?_, ?_, rfl, rfl, rfl, rfl, rfl⟩
  · exact characterManager_roundtrip _ h1 h2
  · rw [fromTemplate_conversations]
    rfl

/-! ### Geometry, chain and list lemmas for `findPath` -/

theorem pos_ext {p q : Position} (hx : p.x = q.x) (hy : p.y = q.y) : p = q := by
  cases p; cases q; simp_all

theorem manhattan_triangle (a b c : Position) :
    manhattan a c ≤ manhattan a b + manhattan b c := by
  unfold manhattan; omega

theorem manhattan_self (a : Position) : manhattan a a = 0 := by
  unfold manhattan; omega

theorem manhattan_eq_zero {a b : Position} (h : manhattan a b = 0) : a = b := by
  unfold manhattan at h
  exact pos_ext (by omega) (by omega)

theorem isWalkable_inBounds {g : GameMap} {p : Position}
    (h : g.isWalkable p.x p.y = true) : inBounds g p := by
  unfold GameMap.isWalkable at h
  rcases hg : g.getTile p.x p.y with _ | t
  · rw [hg] at h; simp at h
  · unfold GameMap.getTile at hg
    by_cases hb : p.x < 0 ∨ p.x ≥ g.width ∨ p.y < 0 ∨ p.y ≥ g.height
    · rw [if_pos hb] at hg; simp at hg
    · push_neg at hb
      exact ⟨by omega, by omega, by omega, by omega⟩

theorem getNewPosition_inBounds {g : GameMap} {p : Position} (hp : inBounds g p)
    (dir : Direction) : inBounds g (g.getNewPosition p dir) := by
  obtain ⟨h1, h2, h3, h4⟩ := hp
  cases dir with
  | up => exact ⟨h1, h2, by show (0:Int) ≤ max 0 (p.y - 1); omega,
      by show max 0 (p.y - 1) < g.height; omega⟩
  | down => exact ⟨h1, h2, by show (0:Int) ≤ min (g.height - 1) (p.y + 1); omega,
      by show min (g.height - 1) (p.y + 1) < g.height; omega⟩
  | left => exact ⟨by show (0:Int) ≤ max 0 (p.x - 1); omega,
      by show max 0 (p.x - 1) < g.width; omega, h3, h4⟩
  | right => exact ⟨by show (0:Int) ≤ min (g.width - 1) (p.x + 1); omega,
      by show min (g.width - 1) (p.x + 1) < g.width; omega, h3, h4⟩

theorem getNewPosition_man_le_one {g : GameMap} {p : Position} (hp : inBounds g p)
    (dir : Direction) : manhattan p (g.getNewPosition p dir) ≤ 1 := by
  obtain ⟨h1, h2, h3, h4⟩ := hp
  cases dir with
  | up => show (p.x - p.x).natAbs + (p.y - max 0 (p.y - 1)).natAbs ≤ 1; omega
  | down => show (p.x - p.x).natAbs + (p.y - min (g.height - 1) (p.y + 1)).natAbs ≤ 1; omega
  | left => show (p.x - max 0 (p.x - 1)).natAbs + (p.y - p.y).natAbs ≤ 1; omega
  | right => show (p.x - min (g.width - 1) (p.x + 1)).natAbs + (p.y - p.y).natAbs ≤ 1; omega

theorem adjStep_man_one {g : GameMap} {p q : Position} (hp : inBounds g p)
    (h : AdjStep g p q) : manhattan p q = 1 := by
  obtain ⟨h1, h2, h3, h4⟩ := hp
  obtain ⟨hne, dir, _, rfl⟩ := h
  cases dir with
  | up =>
    have h5 : ¬ max 0 (p.y - 1) = p.y := fun hc => hne (pos_ext rfl hc)
    show (p.x - p.x).natAbs + (p.y - max 0 (p.y - 1)).natAbs = 1
    omega
  | down =>
    have h5 : ¬ min (g.height - 1) (p.y + 1) = p.y := fun hc => hne (pos_ext rfl hc)
    show (p.x - p.x).natAbs + (p.y - min (g.height - 1) (p.y + 1)).natAbs = 1
    omega
  | left =>
    have h5 : ¬ max 0 (p.x - 1) = p.x := fun hc => hne (pos_ext hc rfl)
    show (p.x - max 0 (p.x - 1)).natAbs + (p.y - p.y).natAbs = 1
    omega
  | right =>
    have h5 : ¬ min (g.width - 1) (p.x + 1) = p.x := fun hc => hne (pos_ext hc rfl)
    show (p.x - min (g.width - 1) (p.x + 1)).natAbs + (p.y - p.y).natAbs = 1
    omega

theorem step_toward (g : GameMap) (fromPos z : Position)
    (hfrom : inBounds g fromPos) (hz : inBounds g z) (hne : z ≠ fromPos) :
    ∃ y dir, dir ∈ allDirections ∧ inBounds g y ∧
      manhattan fromPos y + 1 = manhattan fromPos z ∧
      g.getNewPosition y dir = z ∧ z ≠ y := by
  obtain ⟨hx0, hxw, hy0, hyh⟩ := hz
  obtain ⟨fx0, fxw, fy0, fyh⟩ := hfrom
  by_cases hxe : z.x = fromPos.x
  · have hyne : z.y ≠ fromPos.y := fun hc => hne (pos_ext hxe hc)
    by_cases hlt : fromPos.y < z.y
    · refine ⟨⟨z.x, z.y - 1⟩, .down, by decide,
        ⟨hx0, hxw, by show (0:Int) ≤ z.y - 1; omega, by show z.y - 1 < g.height; omega⟩,
        ?_, ?_, ?_⟩
      · show (fromPos.x - z.x).natAbs + (fromPos.y - (z.y - 1)).natAbs + 1 =
          (fromPos.x - z.x).natAbs + (fromPos.y - z.y).natAbs
        omega
      · exact pos_ext rfl (by show min (g.height - 1) (z.y - 1 + 1) = z.y; omega)
      · intro hc
        have h6 : z.y = z.y - 1 := congrArg Position.y hc
        omega
    · refine ⟨⟨z.x, z.y + 1⟩, .up, by decide,
        ⟨hx0, hxw, by show (0:Int) ≤ z.y + 1; omega, by show z.y + 1 < g.height; omega⟩,
        ?_, ?_, ?_⟩
      · show (fromPos.x - z.x).natAbs + (fromPos.y - (z.y + 1)).natAbs + 1 =
          (fromPos.x - z.x).natAbs + (fromPos.y - z.y).natAbs
        omega
      · exact pos_ext rfl (by show max 0 (z.y + 1 - 1) = z.y; omega)
      · intro hc
        have h6 : z.y = z.y + 1 := congrArg Position.y hc
        omega
  · by_cases hlt : fromPos.x < z.x
    · refine ⟨⟨z.x - 1, z.y⟩, .right, by decide,
        ⟨by show (0:Int) ≤ z.x - 1; omega, by show z.x - 1 < g.width; omega, hy0, hyh⟩,
        ?_, ?_, ?_⟩
      · show (fromPos.x - (z.x - 1)).natAbs + (fromPos.y - z.y).natAbs + 1 =
          (fromPos.x - z.x).natAbs + (fromPos.y - z.y).natAbs
        omega
      · exact pos_ext (by show min (g.width - 1) (z.x - 1 + 1) = z.x; omega) rfl
      · intro hc
        have h6 : z.x = z.x - 1 := congrArg Position.x hc
        omega
    · refine ⟨⟨z.x + 1, z.y⟩, .left, by decide,
        ⟨by show (0:Int) ≤ z.x + 1; omega, by show z.x + 1 < g.width; omega, hy0, hyh⟩,
        ?_, ?_, ?_⟩
      · show (fromPos.x - (z.x + 1)).natAbs + (fromPos.y - z.y).natAbs + 1 =
          (fromPos.x - z.x).natAbs + (fromPos.y - z.y).natAbs
        omega
      · exact pos_ext (by show max 0 (z.x + 1 - 1) = z.x; omega) rfl
      · intro hc
        have h6 : z.x = z.x + 1 := congrArg Position.x hc
        omega

theorem inBounds_nodup_length_le (g : GameMap) (l : List Position) (hnd : l.Nodup)
    (hb : ∀ p ∈ l, inBounds g p) :
    l.length ≤ g.width.toNat * g.height.toNat := by
  classical
  have hnd2 : (l.map (fun p => (p.x, p.y))).Nodup := by
    refine List.Nodup.map_on ?_ hnd
    intro p _ q _ h
    exact pos_ext (congrArg Prod.fst h) (congrArg Prod.snd h)
  have hsub : (l.map (fun p => (p.x, p.y))).toFinset ⊆
      Finset.Ico 0 g.width ×ˢ Finset.Ico 0 g.height := by
    intro q hq
    rw [List.mem_toFinset] at hq
    obtain ⟨p, hp, rfl⟩ := List.mem_map.mp hq
    obtain ⟨h1, h2, h3, h4⟩ := hb p hp
    rw [Finset.mem_product, Finset.mem_Ico, Finset.mem_Ico]
    exact ⟨⟨h1, h2⟩, h3, h4⟩
  calc l.length = (l.map (fun p => (p.x, p.y))).length := (List.length_map _ _).symm
    _ = (l.map (fun p => (p.x, p.y))).toFinset.card :=
        (List.toFinset_card_of_nodup hnd2).symm
    _ ≤ (Finset.Ico 0 g.width ×ˢ Finset.Ico 0 g.height).card := Finset.card_le_card hsub
    _ = g.width.toNat * g.height.toNat := by
        rw [Finset.card_product, Int.card_Ico, Int.card_Ico]
        simp

theorem replicate_get? {α : Type} (a : α) :
    ∀ (n i : Nat), i < n → (List.replicate n a).get? i = some a
  | n + 1, 0, _ => rfl
  | n + 1, i + 1, h => replicate_get? a n i (Nat.lt_of_succ_lt_succ h)

theorem createEmpty_walkable (w h : Int) (p : Position)
    (hb : inBounds (GameMap.createEmpty w h) p) :
    (GameMap.createEmpty w h).isWalkable p.x p.y = true := by
  obtain ⟨h1, h2, h3, h4⟩ := hb
  have h2' : p.x < w := h2
  have h4' : p.y < h := h4
  have hrow : (List.replicate h.toNat (List.replicate w.toNat ("grass" : TileType))).get?
      p.y.toNat = some (List.replicate w.toNat "grass") :=
    replicate_get? _ h.toNat p.y.toNat (by omega)
  have hcell : (List.replicate w.toNat ("grass" : TileType)).get? p.x.toNat = some "grass" :=
    replicate_get? _ w.toNat p.x.toNat (by omega)
  unfold GameMap.isWalkable GameMap.getTile GameMap.createEmpty
  dsimp only
  rw [if_neg (by push_neg; exact ⟨h1, h2', h3, h4'⟩)]
  rw [hrow]
  dsimp only [Option.bind]
  rw [hcell]
  decide

theorem chains_ne_nil {came : List (Position × Position)} {p : Position}
    {l : List Position} (h : Chains came p l) : l ≠ [] := by
  induction h with
  | base q _ => simp
  | step q parent l0 _ _ _ => simp

theorem chains_getLast {came : List (Position × Position)} {p : Position}
    {l : List Position} (h : Chains came p l) : l.getLast? = some p := by
  induction h with
  | base q _ => rfl
  | step q parent l0 _ _ _ => exact List.getLast?_concat l0

theorem chains_tail_keys {came : List (Position × Position)} {p : Position}
    {l : List Position} (h : Chains came p l) :
    ∀ q ∈ l.tail, q ∈ came.map Prod.fst := by
  induction h with
  | base q hq => simp
  | step q parent l0 hq hc IH =>
    intro r hr
    have hl0 : l0 ≠ [] := chains_ne_nil hc
    rcases l0 with _ | ⟨a, t⟩
    · exact absurd rfl hl0
    · simp only [List.cons_append, List.tail_cons] at hr
      rcases List.mem_append.mp hr with h1 | h1
      · exact IH r h1
      · rw [List.mem_singleton] at h1
        subst h1
        exact mapGet_some_key_mem hq

theorem chains_length_le {came : List (Position × Position)} {p : Position}
    {l : List Position} (h : Chains came p l) (hnd : l.Nodup) :
    l.length ≤ came.length + 1 := by
  have htail : l.tail.length ≤ came.length := by
    have hsub : l.tail ⊆ came.map Prod.fst := fun q hq => chains_tail_keys h q hq
    have hndt : l.tail.Nodup := by
      rcases l with _ | ⟨a, t⟩
      · simp
      · exact (List.nodup_cons.mp hnd).2
    calc l.tail.length ≤ (came.map Prod.fst).length :=
          (List.subperm_of_subset hndt hsub).length_le
      _ = came.length := List.length_map _ _
  rcases l with _ | ⟨a, t⟩
  · simp
  · simp only [List.tail_cons] at htail
    simp only [List.length_cons]
    omega

theorem chains_mapSet {came : List (Position × Position)} {p : Position}
    {l : List Position} (h : Chains came p l) (k v : Position)
    (hk : ∀ q ∈ l, q ≠ k) : Chains (mapSet came k v) p l := by
  induction h with
  | base q hq =>
    refine Chains.base q ?_
    rw [mapGet_mapSet_ne came k q v (hk q (by simp)), hq]
  | step q parent l0 hq hc IH =>
    refine Chains.step q parent l0 ?_ ?_
    · rw [mapGet_mapSet_ne came k q v (hk q (by simp)), hq]
    · exact IH (fun r hr => hk r (List.mem_append.mpr (Or.inl hr)))

theorem reconstruct_eq_chain {came : List (Position × Position)} {p : Position}
    {l : List Position} (h : Chains came p l) :
    ∀ fuel, l.length ≤ fuel + 1 → reconstructPath came fuel p = l := by
  induction h with
  | base q hq =>
    intro fuel _
    cases fuel with
    | zero => rfl
    | succ n => simp [reconstructPath, hq]
  | step q parent l0 hq hc IH =>
    intro fuel hlen
    have hl0 : l0 ≠ [] := chains_ne_nil hc
    have hl0len : 1 ≤ l0.length := List.length_pos.mpr hl0
    rw [List.length_append, List.length_singleton] at hlen
    cases fuel with
    | zero => omega
    | succ n =>
      simp only [reconstructPath, hq]
      rw [IH n (by omega)]

theorem mem_of_getLast? {α : Type} {l : List α} {z q : α}
    (hz : l.getLast? = some z) (hq : q ∈ l) : q ∈ l.dropLast ∨ q = z := by
  rcases hl : l with _ | ⟨a, t⟩
  · subst hl; simp at hq
  · subst hl
    have hne : a :: t ≠ [] := by simp
    have hlast : (a :: t).getLast? = some ((a :: t).getLast hne) :=
      List.getLast?_eq_getLast _ hne
    rw [hz] at hlast
    have hzl : z = (a :: t).getLast hne := by
      injection hlast
    have hsplit := List.dropLast_concat_getLast hne
    rw [← hsplit] at hq
    rcases List.mem_append.mp hq with h1 | h1
    · exact Or.inl h1
    · rw [List.mem_singleton] at h1
      exact Or.inr (h1.trans hzl.symm)

theorem sortByF_perm (l : List ANode) : (sortByF l).Perm l :=
  List.perm_insertionSort fLE l

theorem sortByF_head_min {l : List ANode} {c : ANode} {r : List ANode}
    (h : sortByF l = c :: r) : ∀ m ∈ l, c.f ≤ m.f := by
  have hs : List.Sorted fLE (sortByF l) := List.sorted_insertionSort fLE l
  rw [h] at hs
  intro m hm
  have hm2 : m ∈ c :: r := by
    rw [← h]
    exact ((sortByF_perm l).mem_iff).mpr hm
  rcases List.mem_cons.mp hm2 with rfl | hmr
  · exact le_refl _
  · exact (List.sorted_cons.mp hs).1 m hmr

theorem findIdx?_none_all {α : Type} {p : α → Bool} {l : List α}
    (h : l.findIdx? p = none) : ∀ x ∈ l, p x = false :=
  List.findIdx?_eq_none_iff.mp h

theorem findIdx?_some_get {α : Type} {p : α → Bool} {l : List α} {i : Nat}
    (h : l.findIdx? p = some i) :
    i < l.length ∧ ∃ x, l.get? i = some x ∧ p x = true := by
  obtain ⟨hi, hfind⟩ := List.findIdx?_eq_some_iff_findIdx_eq.mp h
  refine ⟨hi, l.get ⟨i, hi⟩, ?_, ?_⟩
  · exact List.get?_eq_get hi
  · have := (List.findIdx_eq hi).mp hfind
    exact this.1

theorem map_set_same {α β : Type} (f : α → β) :
    ∀ (l : List α) (i : Nat) (b x : α), l.get? i = some x → f b = f x →
      (l.set i b).map f = l.map f
  | [], i, b, x, hx, _ => by simp at hx
  | a :: t, 0, b, x, hx, hfb => by
    simp only [List.get?_cons_zero, Option.some.injEq] at hx
    subst hx
    simp [hfb]
  | a :: t, i + 1, b, x, hx, hfb => by
    simp only [List.get?_cons_succ] at hx
    simp only [List.set_cons_succ, List.map_cons]
    rw [map_set_same f t i b x hx hfb]

theorem mem_set_cases {α : Type} :
    ∀ {l : List α} {i : Nat} {b a : α}, a ∈ l.set i b →
      a = b ∨ ∃ j, j ≠ i ∧ l.get? j = some a := by
  intro l
  induction l with
  | nil => intro i b a h; simp at h
  | cons c t IH =>
    intro i b a h
    cases i with
    | zero =>
      rw [List.set_cons_zero] at h
      rcases List.mem_cons.mp h with rfl | h1
      · exact Or.inl rfl
      · obtain ⟨j, hj⟩ := List.mem_iff_get?.mp h1
        exact Or.inr ⟨j + 1, by simp, by simpa using hj⟩
    | succ i =>
      rw [List.set_cons_succ] at h
      rcases List.mem_cons.mp h with rfl | h1
      · exact Or.inr ⟨0, by simp, rfl⟩
      · rcases IH h1 with h2 | ⟨j, hj1, hj2⟩
        · exact Or.inl h2
        · exact Or.inr ⟨j + 1, by simpa using hj1, by simpa using hj2⟩

theorem head?_append_left {α : Type} {l : List α} (l2 : List α) (h : l ≠ []) :
    (l ++ l2).head? = l.head? := by
  rcases l with _ | ⟨a, t⟩
  · exact absurd rfl h
  · rfl

theorem tail_append_left {α : Type} {l : List α} (l2 : List α) (h : l ≠ []) :
    (l ++ l2).tail = l.tail ++ l2 := by
  rcases l with _ | ⟨a, t⟩
  · exact absurd rfl h
  · rfl

/-! ### `stepNeighbor` case equations -/

theorem nodup_get?_ne {α : Type} {l : List α} (hnd : l.Nodup) {i j : Nat} (hij : i ≠ j)
    {a b : α} (ha : l.get? i = some a) (hb : l.get? j = some b) : a ≠ b := by
  intro hab
  subst hab
  have hi : i < l.length := by
    by_contra hh
    rw [List.get?_eq_none.mpr (by omega)] at ha
    exact Option.noConfusion ha
  have hj : j < l.length := by
    by_contra hh
    rw [List.get?_eq_none.mpr (by omega)] at hb
    exact Option.noConfusion hb
  have ha' : l.get ⟨i, hi⟩ = a := by
    rw [List.get?_eq_get hi] at ha
    injection ha
  have hb' : l.get ⟨j, hj⟩ = a := by
    rw [List.get?_eq_get hj] at hb
    injection hb
  have heq : (⟨i, hi⟩ : Fin l.length) = ⟨j, hj⟩ := by
    apply (List.Nodup.get_inj_iff hnd).mp
    rw [ha', hb']
  exact hij (by simpa using congrArg Fin.val heq)

theorem stepNeighbor_skip (g : GameMap) (occupied : List Position) (toPos : Position)
    (closed : List Position) (current : ANode)
    (acc : List ANode × List (Position × Position)) (dir : Direction)
    (h : g.getNewPosition current.position dir ∈ closed ∨
      ¬ g.isWalkable (g.getNewPosition current.position dir).x
          (g.getNewPosition current.position dir).y = true ∨
      g.getNewPosition current.position dir ∈ occupied) :
    stepNeighbor g occupied toPos closed current acc dir = acc := by
  simp only [stepNeighbor]
  by_cases h1 : g.getNewPosition current.position dir ∈ closed
  · rw [if_pos h1]
  · rw [if_neg h1]
    by_cases h2 : g.isWalkable (g.getNewPosition current.position dir).x
        (g.getNewPosition current.position dir).y = true
    · rw [if_neg (not_not_intro h2)]
      rcases h with h | h | h
      · exact absurd h h1
      · exact absurd h2 h
      · rw [if_pos h]
    · rw [if_pos h2]

theorem stepNeighbor_push (g : GameMap) (occupied : List Position) (toPos : Position)
    (closed : List Position) (current : ANode)
    (acc : List ANode × List (Position × Position)) (dir : Direction)
    (h1 : g.getNewPosition current.position dir ∉ closed)
    (h2 : g.isWalkable (g.getNewPosition current.position dir).x
        (g.getNewPosition current.position dir).y = true)
    (h3 : g.getNewPosition current.position dir ∉ occupied)
    (h4 : acc.1.findIdx?
        (fun n => n.position == g.getNewPosition current.position dir) = none) :
    stepNeighbor g occupied toPos closed current acc dir =
      (acc.1 ++ [pushNode current (g.getNewPosition current.position dir) toPos],
        mapSet acc.2 (g.getNewPosition current.position dir) current.position) := by
  simp only [stepNeighbor]
  rw [if_neg h1, if_neg (not_not_intro h2), if_neg h3, h4]
  rfl

theorem stepNeighbor_badidx (g : GameMap) (occupied : List Position) (toPos : Position)
    (closed : List Position) (current : ANode)
    (acc : List ANode × List (Position × Position)) (dir : Direction) (i : Nat)
    (h1 : g.getNewPosition current.position dir ∉ closed)
    (h2 : g.isWalkable (g.getNewPosition current.position dir).x
        (g.getNewPosition current.position dir).y = true)
    (h3 : g.getNewPosition current.position dir ∉ occupied)
    (h4 : acc.1.findIdx?
        (fun n => n.position == g.getNewPosition current.position dir) = some i)
    (h5 : acc.1.get? i = none) :
    stepNeighbor g occupied toPos closed current acc dir = acc := by
  simp only [stepNeighbor]
  rw [if_neg h1, if_neg (not_not_intro h2), if_neg h3, h4]
  dsimp only
  rw [h5]

theorem stepNeighbor_update (g : GameMap) (occupied : List Position) (toPos : Position)
    (closed : List Position) (current : ANode)
    (acc : List ANode × List (Position × Position)) (dir : Direction) (i : Nat)
    (existing : ANode)
    (h1 : g.getNewPosition current.position dir ∉ closed)
    (h2 : g.isWalkable (g.getNewPosition current.position dir).x
        (g.getNewPosition current.position dir).y = true)
    (h3 : g.getNewPosition current.position dir ∉ occupied)
    (h4 : acc.1.findIdx?
        (fun n => n.position == g.getNewPosition current.position dir) = some i)
    (h5 : acc.1.get? i = some existing)
    (h6 : current.g + 1 < existing.g) :
    stepNeighbor g occupied toPos closed current acc dir =
      (acc.1.set i (updNode existing current (g.getNewPosition current.position dir) toPos),
        mapSet acc.2 (g.getNewPosition current.position dir) current.position) := by
  simp only [stepNeighbor]
  rw [if_neg h1, if_neg (not_not_intro h2), if_neg h3, h4]
  dsimp only
  rw [h5]
  dsimp only
  rw [if_pos h6]
  rfl

theorem stepNeighbor_keep (g : GameMap) (occupied : List Position) (toPos : Position)
    (closed : List Position) (current : ANode)
    (acc : List ANode × List (Position × Position)) (dir : Direction) (i : Nat)
    (existing : ANode)
    (h1 : g.getNewPosition current.position dir ∉ closed)
    (h2 : g.isWalkable (g.getNewPosition current.position dir).x
        (g.getNewPosition current.position dir).y = true)
    (h3 : g.getNewPosition current.position dir ∉ occupied)
    (h4 : acc.1.findIdx?
        (fun n => n.position == g.getNewPosition current.position dir) = some i)
    (h5 : acc.1.get? i = some existing)
    (h6 : ¬ current.g + 1 < existing.g) :
    stepNeighbor g occupied toPos closed current acc dir = acc := by
  simp only [stepNeighbor]
  rw [if_neg h1, if_neg (not_not_intro h2), if_neg h3, h4]
  dsimp only
  rw [h5]
  dsimp only
  rw [if_neg h6]

/-! ### Invariant preservation of one neighbor step -/

theorem stepNeighbor_stepInv {g : GameMap} {occupied : List Position}
    {fromPos toPos : Position} {current : ANode} {closed2 : List Position}
    {acc : List ANode × List (Position × Position)} {dir : Direction}
    (hdir : dir ∈ allDirections)
    (h : StepInv g occupied fromPos current closed2 acc) :
    StepInv g occupied fromPos current closed2
      (stepNeighbor g occupied toPos closed2 current acc dir) := by
  obtain ⟨hG, hcc2, hCC⟩ := h
  by_cases h1 : g.getNewPosition current.position dir ∈ closed2
  · rw [stepNeighbor_skip g occupied toPos closed2 current acc dir (Or.inl h1)]
    exact ⟨hG, hcc2, hCC⟩
  · by_cases h2 : g.isWalkable (g.getNewPosition current.position dir).x
        (g.getNewPosition current.position dir).y = true
    · by_cases h3 : g.getNewPosition current.position dir ∈ occupied
      · rw [stepNeighbor_skip g occupied toPos closed2 current acc dir (Or.inr (Or.inr h3))]
        exact ⟨hG, hcc2, hCC⟩
      · obtain ⟨lc, hch, hhd, hlen, hchain, htail, hnd, hsub⟩ := hCC
        obtain ⟨hno, honc, hnc, hcs, hos, hck, hchains⟩ := hG
        have hnbne : ∀ q ∈ lc, q ≠ g.getNewPosition current.position dir :=
          fun q hq hc => h1 (hc ▸ hsub q hq)
        have hCC2 : CurChain g occupied fromPos closed2
            (mapSet acc.2 (g.getNewPosition current.position dir) current.position)
            current :=
          ⟨lc, chains_mapSet hch _ _ hnbne, hhd, hlen, hchain, htail, hnd, hsub⟩
        have hadj : AdjStep g current.position (g.getNewPosition current.position dir) :=
          ⟨fun hc => h1 (by rw [hc]; exact hcc2), dir, hdir, rfl⟩
        have hstep : Chains
            (mapSet acc.2 (g.getNewPosition current.position dir) current.position)
            (g.getNewPosition current.position dir)
            (lc ++ [g.getNewPosition current.position dir]) :=
          Chains.step _ current.position lc
            (mapGet_mapSet_self acc.2 _ current.position)
            (chains_mapSet hch _ _ hnbne)
        have hhd2 : (lc ++ [g.getNewPosition current.position dir]).head? = some fromPos := by
          rw [head?_append_left _ (chains_ne_nil hch)]
          exact hhd
        have hlen2 : (lc ++ [g.getNewPosition current.position dir]).length =
            current.g + 1 + 1 := by
          rw [List.length_append, List.length_singleton, hlen]
        have hchain2 : (lc ++ [g.getNewPosition current.position dir]).Chain' (AdjStep g) := by
          rw [List.chain'_append]
          refine ⟨hchain, List.chain'_singleton _, ?_⟩
          intro x hx y hy
          rw [chains_getLast hch] at hx
          simp only [Option.mem_def, Option.some.injEq] at hx
          simp only [List.head?_cons, Option.mem_def, Option.some.injEq] at hy
          subst hx
          subst hy
          exact hadj
        have htail2 : ∀ p ∈ (lc ++ [g.getNewPosition current.position dir]).tail,
            FreeCell g occupied p := by
          intro p hp
          rw [tail_append_left _ (chains_ne_nil hch)] at hp
          rcases List.mem_append.mp hp with hp | hp
          · exact htail p hp
          · rw [List.mem_singleton] at hp
            subst hp
            exact ⟨h2, h3⟩
        have hnd2 : (lc ++ [g.getNewPosition current.position dir]).Nodup := by
          rw [List.nodup_append]
          refine ⟨hnd, List.nodup_singleton _, ?_⟩
          intro q hq hq2
          rw [List.mem_singleton] at hq2
          exact hnbne q hq hq2
        have hdrop2 : ∀ p ∈ (lc ++ [g.getNewPosition current.position dir]).dropLast,
            p ∈ closed2 := by
          rw [List.dropLast_concat]
          exact hsub
        have hstable : ∀ n ∈ acc.1, n.position ≠ g.getNewPosition current.position dir →
            ChainOk g occupied fromPos closed2 acc.2 n →
            ChainOk g occupied fromPos closed2
              (mapSet acc.2 (g.getNewPosition current.position dir) current.position) n := by
          rintro n hn hne ⟨l, hl1, hl2, hl3, hl4, hl5, hl6, hl7⟩
          refine ⟨l, chains_mapSet hl1 _ _ ?_, hl2, hl3, hl4, hl5, hl6, hl7⟩
          intro q hq
          rcases mem_of_getLast? (chains_getLast hl1) hq with hq2 | hq2
          · exact fun hc => h1 (hc ▸ hl7 q hq2)
          · subst hq2
            exact hne
        rcases h4 : acc.1.findIdx?
            (fun n => n.position == g.getNewPosition current.position dir) with _ | i
        · rw [stepNeighbor_push g occupied toPos closed2 current acc dir h1 h2 h3 h4]
          have hfound : ∀ n ∈ acc.1, n.position ≠ g.getNewPosition current.position dir := by
            intro n hn hc
            have hfa : (n.position == g.getNewPosition current.position dir) = false :=
              findIdx?_none_all h4 n hn
            rw [hc] at hfa
            simp at hfa
          refine ⟨⟨?_, ?_, hnc, hcs, ?_, mapSet_keys_nodup _ _ hck, ?_⟩, hcc2, hCC2⟩
          · rw [List.map_append, List.nodup_append]
            refine ⟨hno, by simp, ?_⟩
            intro a ha hb
            simp only [pushNode, List.map_cons, List.map_nil, List.mem_singleton] at hb
            subst hb
            obtain ⟨n, hn, hpos⟩ := List.mem_map.mp ha
            exact hfound n hn hpos
          · intro n hn
            rcases List.mem_append.mp hn with hn | hn
            · exact honc n hn
            · rw [List.mem_singleton] at hn
              subst hn
              exact h1
          · intro n hn
            rcases List.mem_append.mp hn with hn | hn
            · exact hos n hn
            · rw [List.mem_singleton] at hn
              subst hn
              exact Or.inr ⟨h2, h3⟩
          · intro n hn
            rcases List.mem_append.mp hn with hn | hn
            · exact hstable n hn (hfound n hn) (hchains n hn)
            · rw [List.mem_singleton] at hn
              subst hn
              exact ⟨lc ++ [g.getNewPosition current.position dir], hstep, hhd2, hlen2,
                hchain2, htail2, hnd2, hdrop2⟩
        · rcases h5 : acc.1.get? i with _ | existing
          · rw [stepNeighbor_badidx g occupied toPos closed2 current acc dir i h1 h2 h3 h4 h5]
            exact ⟨⟨hno, honc, hnc, hcs, hos, hck, hchains⟩, hcc2,
              ⟨lc, hch, hhd, hlen, hchain, htail, hnd, hsub⟩⟩
          · obtain ⟨hilen, x, hx, hxp⟩ := findIdx?_some_get h4
            have hxp' : (x.position == g.getNewPosition current.position dir) = true := hxp
            have hpos : existing.position = g.getNewPosition current.position dir := by
              have hxx : x = existing := by
                have h7 := hx.symm.trans h5
                exact Option.some.inj h7
              rw [← hxx]
              exact beq_iff_eq.mp hxp'
            by_cases h6 : current.g + 1 < existing.g
            · rw [stepNeighbor_update g occupied toPos closed2 current acc dir i existing
                h1 h2 h3 h4 h5 h6]
              have hposu : (updNode existing current (g.getNewPosition current.position dir)
                  toPos).position = g.getNewPosition current.position dir := hpos
              have hne_other : ∀ j, j ≠ i → ∀ n, acc.1.get? j = some n →
                  n.position ≠ g.getNewPosition current.position dir := by
                intro j hj n hget hc
                have hgi' : (acc.1.map ANode.position).get? i = some existing.position := by
                  rw [List.get?_map, h5]
                  rfl
                have hgj' : (acc.1.map ANode.position).get? j = some n.position := by
                  rw [List.get?_map, hget]
                  rfl
                exact nodup_get?_ne hno hj hgj' hgi' (by rw [hc, hpos])
              refine ⟨⟨?_, ?_, hnc, hcs, ?_, mapSet_keys_nodup _ _ hck, ?_⟩, hcc2, hCC2⟩
              · rw [map_set_same ANode.position acc.1 i
                  (updNode existing current (g.getNewPosition current.position dir) toPos)
                  existing h5 rfl]
                exact hno
              · intro n hn
                rcases mem_set_cases hn with hn | ⟨j, hj, hget⟩
                · subst hn
                  rw [hposu]
                  exact h1
                · exact honc n (List.get?_mem hget)
              · intro n hn
                rcases mem_set_cases hn with hn | ⟨j, hj, hget⟩
                · subst hn
                  rw [hposu]
                  exact Or.inr ⟨h2, h3⟩
                · exact hos n (List.get?_mem hget)
              · intro n hn
                rcases mem_set_cases hn with hn | ⟨j, hj, hget⟩
                · subst hn
                  refine ⟨lc ++ [g.getNewPosition current.position dir], ?_, hhd2, ?_,
                    hchain2, htail2, hnd2, hdrop2⟩
                  · rw [hposu]
                    exact hstep
                  · exact hlen2
                · exact hstable n (List.get?_mem hget) (hne_other j hj n hget)
                    (hchains n (List.get?_mem hget))
            · rw [stepNeighbor_keep g occupied toPos closed2 current acc dir i existing
                h1 h2 h3 h4 h5 h6]
              exact ⟨⟨hno, honc, hnc, hcs, hos, hck, hchains⟩, hcc2,
                ⟨lc, hch, hhd, hlen, hchain, htail, hnd, hsub⟩⟩
    · rw [stepNeighbor_skip g occupied toPos closed2 current acc dir (Or.inr (Or.inl h2))]
      exact ⟨hG, hcc2, hCC⟩

/-! ### Soundness of the A* loop -/

theorem foldl_stepInv {g : GameMap} {occupied : List Position} {fromPos toPos : Position}
    {current : ANode} {closed2 : List Position} :
    ∀ (dirs : List Direction) (acc : List ANode × List (Position × Position)),
      (∀ d ∈ dirs, d ∈ allDirections) →
      StepInv g occupied fromPos current closed2 acc →
      StepInv g occupied fromPos current closed2
        (dirs.foldl (stepNeighbor g occupied toPos closed2 current) acc)
  | [], _, _, h => h
  | d :: rest, acc, hd, h => by
    rw [List.foldl_cons]
    exact foldl_stepInv rest _ (fun x hx => hd x (List.mem_cons_of_mem d hx))
      (stepNeighbor_stepInv (hd d (List.mem_cons_self d rest)) h)

theorem expandNeighbors_stepInv {g : GameMap} {occupied : List Position}
    {fromPos toPos : Position} {current : ANode} {closed2 : List Position}
    {openRest : List ANode} {came : List (Position × Position)}
    (h : StepInv g occupied fromPos current closed2 (openRest, came)) :
    StepInv g occupied fromPos current closed2
      (expandNeighbors g occupied toPos closed2 current openRest came) := by
  unfold expandNeighbors
  exact foldl_stepInv allDirections (openRest, came) (fun d hd => hd) h

theorem iter_stepInv {g : GameMap} {occupied : List Position} {fromPos : Position}
    {openSet : List ANode} {closed : List Position} {came : List (Position × Position)}
    {current : ANode} {rest : List ANode}
    (hG : GInv g occupied fromPos openSet closed came)
    (hsort : sortByF openSet = current :: rest) :
    StepInv g occupied fromPos current (current.position :: closed) (rest, came) := by
  obtain ⟨hno, honc, hnc, hcs, hos, hck, hchains⟩ := hG
  have hperm : (current :: rest).Perm openSet := by
    rw [← hsort]
    exact sortByF_perm openSet
  have hcur : current ∈ openSet := hperm.mem_iff.mp (List.mem_cons_self _ _)
  have hrest : ∀ n ∈ rest, n ∈ openSet :=
    fun n hn => hperm.mem_iff.mp (List.mem_cons_of_mem _ hn)
  have hndc : (current.position :: rest.map ANode.position).Nodup :=
    (hperm.map ANode.position).nodup_iff.mpr hno
  have hcr : current.position ∉ rest.map ANode.position := (List.nodup_cons.mp hndc).1
  have hrestpos : ∀ n ∈ rest, n.position ≠ current.position := by
    intro n hn hc
    exact hcr (hc ▸ List.mem_map_of_mem ANode.position hn)
  refine ⟨⟨?_, ?_, ?_, ?_, ?_, hck, ?_⟩, List.mem_cons_self _ _, ?_⟩
  · exact (List.nodup_cons.mp hndc).2
  · intro n hn
    rw [List.mem_cons]
    push_neg
    exact ⟨hrestpos n hn, honc n (hrest n hn)⟩
  · exact List.nodup_cons.mpr ⟨honc current hcur, hnc⟩
  · intro p hp
    rcases List.mem_cons.mp hp with hp | hp
    · subst hp
      exact hos current hcur
    · exact hcs p hp
  · intro n hn
    exact hos n (hrest n hn)
  · intro n hn
    obtain ⟨l, hl1, hl2, hl3, hl4, hl5, hl6, hl7⟩ := hchains n (hrest n hn)
    exact ⟨l, hl1, hl2, hl3, hl4, hl5, hl6, fun p hp => List.mem_cons_of_mem _ (hl7 p hp)⟩
  · obtain ⟨l, hl1, hl2, hl3, hl4, hl5, hl6, hl7⟩ := hchains current hcur
    refine ⟨l, hl1, hl2, hl3, hl4, hl5, hl6, ?_⟩
    intro p hp
    rcases mem_of_getLast? (chains_getLast hl1) hp with hp2 | hp2
    · exact List.mem_cons_of_mem _ (hl7 p hp2)
    · rw [hp2]
      exact List.mem_cons_self _ _

theorem astarLoop_sound (g : GameMap) (occupied : List Position)
    (fromPos toPos : Position) :
    ∀ (fuel : Nat) (openSet : List ANode) (closed : List Position)
      (came : List (Position × Position)),
      GInv g occupied fromPos openSet closed came →
      astarLoop g occupied toPos fuel openSet closed came ≠ [] →
      isCodePath g occupied fromPos toPos
        (astarLoop g occupied toPos fuel openSet closed came) := by
  intro fuel
  induction fuel with
  | zero =>
    intro openSet closed came _ hne
    exact absurd rfl hne
  | succ n IH =>
    intro openSet closed came hG hne
    rcases hsort : sortByF openSet with _ | ⟨current, rest⟩
    · simp only [astarLoop, hsort] at hne ⊢
      exact absurd rfl hne
    · simp only [astarLoop, hsort] at hne ⊢
      by_cases hq : (current.position == toPos) = true
      · rw [if_pos hq] at hne ⊢
        have heq : current.position = toPos := beq_iff_eq.mp hq
        have hcur : current ∈ openSet := by
          have hperm : (current :: rest).Perm openSet := by
            rw [← hsort]
            exact sortByF_perm openSet
          exact hperm.mem_iff.mp (List.mem_cons_self _ _)
        obtain ⟨l, hl1, hl2, hl3, hl4, hl5, hl6, hl7⟩ := hG.chains current hcur
        have hrec : reconstructPath came (came.length + 1) current.position = l :=
          reconstruct_eq_chain hl1 _ (by have := chains_length_le hl1 hl6; omega)
        rw [hrec]
        exact ⟨hl2, by rw [chains_getLast hl1, heq], hl4, hl5⟩
      · rw [if_neg hq] at hne ⊢
        exact IH _ _ _ (expandNeighbors_stepInv (iter_stepInv hG hsort)).1 hne

theorem findPath_sound (g : GameMap) (occupied : List Position) (fromPos toPos : Position)
    (hne : g.findPath fromPos toPos occupied ≠ []) :
    isCodePath g occupied fromPos toPos (g.findPath fromPos toPos occupied) := by
  unfold GameMap.findPath at hne ⊢
  refine astarLoop_sound g occupied fromPos toPos _ _ _ _ ?_ hne
  refine ⟨?_, ?_, ?_, ?_, ?_, ?_, ?_⟩
  · simp
  · intro n hn
    simp only [List.mem_singleton] at hn
    subst hn
    simp
  · simp
  · intro p hp
    simp at hp
  · intro n hn
    simp only [List.mem_singleton] at hn
    subst hn
    exact Or.inl rfl
  · simp
  · intro n hn
    simp only [List.mem_singleton] at hn
    subst hn
    refine ⟨[fromPos], Chains.base _ rfl, rfl, rfl, List.chain'_singleton _, ?_, ?_, ?_⟩
    · intro p hp
      simp at hp
    · simp
    · intro p hp
      simp at hp

theorem chain'_adj_man (g : GameMap) :
    ∀ (l : List Position), l.Chain' (AdjStep g) → (∀ p ∈ l, inBounds g p) →
      l.Chain' (fun p q => manhattan p q = 1)
  | [], _, _ => List.chain'_nil
  | [a], _, _ => List.chain'_singleton a
  | a :: b :: t, h, hb => by
    rw [List.chain'_cons] at h ⊢
    exact ⟨adjStep_man_one (hb a (by simp)) h.1,
      chain'_adj_man g (b :: t) h.2 (fun p hp => hb p (List.mem_cons_of_mem a hp))⟩

theorem codePath_to_fullPath {g : GameMap} {occupied : List Position}
    {fromPos toPos : Position} {l : List Position}
    (hfree : FreeCell g occupied fromPos) (h : isCodePath g occupied fromPos toPos l) :
    isFullPath g occupied fromPos toPos l := by
  obtain ⟨hh, hl, hc, ht⟩ := h
  have hall : ∀ p ∈ l, FreeCell g occupied p := by
    intro p hp
    rcases hl0 : l with _ | ⟨a, t⟩
    · rw [hl0] at hp
      simp at hp
    · rw [hl0] at hp hh ht
      have ha : a = fromPos := by
        simp only [List.head?_cons, Option.some.injEq] at hh
        exact hh
      rcases List.mem_cons.mp hp with rfl | hp2
      · rw [ha]
        exact hfree
      · exact ht p hp2
  exact ⟨hh, hl, chain'_adj_man g l hc (fun p hp => isWalkable_inBounds (hall p hp).1), hall⟩

theorem findPath_unreachable (g : GameMap) (occupied : List Position)
    (fromPos toPos : Position) (hfree : FreeCell g occupied fromPos)
    (hnp : ¬ ∃ l, isFullPath g occupied fromPos toPos l) :
    g.findPath fromPos toPos occupied = [] := by
  by_contra hne
  exact hnp ⟨_, codePath_to_fullPath hfree (findPath_sound g occupied fromPos toPos hne)⟩

/-! ### Open-set domination across a neighbor step -/

theorem openDom_refl (l : List ANode) : OpenDom l l :=
  fun n hn => ⟨n, hn, rfl, le_refl _⟩

theorem openDom_trans {l1 l2 l3 : List ANode} (h1 : OpenDom l1 l2) (h2 : OpenDom l2 l3) :
    OpenDom l1 l3 := by
  intro n hn
  obtain ⟨m, hm, hp, hg⟩ := h1 n hn
  obtain ⟨k, hk, hp2, hg2⟩ := h2 m hm
  exact ⟨k, hk, hp2.trans hp, hg2.trans hg⟩

theorem mem_set_self {α : Type} : ∀ (l : List α) (i : Nat) (b : α), i < l.length →
    b ∈ l.set i b
  | a :: t, 0, b, _ => by simp
  | a :: t, i + 1, b, h => by
    rw [List.set_cons_succ]
    exact List.mem_cons_of_mem a (mem_set_self t i b (by simpa using h))
  | [], i, b, h => by simp at h

theorem mem_set_of_get?_ne {α : Type} {l : List α} {j i : Nat} {n : α} (hj : j ≠ i)
    (hget : l.get? j = some n) (b : α) : n ∈ l.set i b := by
  have h2 : (l.set i b).get? j = some n := by
    rw [List.get?_set_ne b l (fun hc => hj hc.symm)]
    exact hget
  exact List.get?_mem h2

theorem stepNeighbor_openDom (g : GameMap) (occupied : List Position) (toPos : Position)
    (closed : List Position) (current : ANode)
    (acc : List ANode × List (Position × Position)) (dir : Direction) :
    OpenDom acc.1 (stepNeighbor g occupied toPos closed current acc dir).1 := by
  by_cases h1 : g.getNewPosition current.position dir ∈ closed
  · rw [stepNeighbor_skip g occupied toPos closed current acc dir (Or.inl h1)]
    exact openDom_refl _
  · by_cases h2 : g.isWalkable (g.getNewPosition current.position dir).x
        (g.getNewPosition current.position dir).y = true
    · by_cases h3 : g.getNewPosition current.position dir ∈ occupied
      · rw [stepNeighbor_skip g occupied toPos closed current acc dir (Or.inr (Or.inr h3))]
        exact openDom_refl _
      · rcases h4 : acc.1.findIdx?
            (fun n => n.position == g.getNewPosition current.position dir) with _ | i
        · rw [stepNeighbor_push g occupied toPos closed current acc dir h1 h2 h3 h4]
          intro n hn
          exact ⟨n, List.mem_append.mpr (Or.inl hn), rfl, le_refl _⟩
        · rcases h5 : acc.1.get? i with _ | existing
          · rw [stepNeighbor_badidx g occupied toPos closed current acc dir i h1 h2 h3 h4 h5]
            exact openDom_refl _
          · by_cases h6 : current.g + 1 < existing.g
            · rw [stepNeighbor_update g occupied toPos closed current acc dir i existing
                h1 h2 h3 h4 h5 h6]
              intro n hn
              obtain ⟨j, hj⟩ := List.mem_iff_get?.mp hn
              by_cases hji : j = i
              · subst hji
                have hne : n = existing := by
                  rw [hj] at h5
                  exact Option.some.inj h5
                subst hne
                refine ⟨updNode n current (g.getNewPosition current.position dir) toPos,
                  mem_set_self _ j _ (findIdx?_some_get h4).1, rfl, ?_⟩
                show current.g + 1 ≤ n.g
                omega
              · exact ⟨n, mem_set_of_get?_ne hji hj _, rfl, le_refl _⟩
            · rw [stepNeighbor_keep g occupied toPos closed current acc dir i existing
                h1 h2 h3 h4 h5 h6]
              exact openDom_refl _
    · rw [stepNeighbor_skip g occupied toPos closed current acc dir (Or.inr (Or.inl h2))]
      exact openDom_refl _

/-! ### Free-grid facts across a neighbor step -/

theorem stepNeighbor_freeAcc {g : GameMap} {fromPos toPos : Position}
    {current : ANode} {closed closed2 : List Position}
    {acc : List ANode × List (Position × Position)} {dir : Direction}
    (hfree : ∀ p, inBounds g p → g.isWalkable p.x p.y = true)
    (hcb : inBounds g current.position)
    (hcg : current.g = manhattan fromPos current.position)
    (h : FreeAcc g fromPos toPos closed closed2 acc.1) :
    FreeAcc g fromPos toPos closed closed2
      (stepNeighbor g [] toPos closed2 current acc dir).1 ∧
    (g.getNewPosition current.position dir ∉ closed2 →
      ∃ n ∈ (stepNeighbor g [] toPos closed2 current acc dir).1,
        n.position = g.getNewPosition current.position dir ∧
        n.g ≤ manhattan fromPos current.position + 1) := by
  obtain ⟨hfv, hgl, hfg, hfi, hex⟩ := h
  have hdom := stepNeighbor_openDom g [] toPos closed2 current acc dir
  have hex2 : ∀ (res : List ANode), OpenDom acc.1 res →
      ∀ p ∈ closed, ∀ d2 ∈ allDirections,
      g.getNewPosition p d2 ≠ p → g.getNewPosition p d2 ∉ closed2 →
      ∃ n ∈ res, n.position = g.getNewPosition p d2 ∧ n.g ≤ manhattan fromPos p + 1 := by
    intro res hdom2 p hp d2 hd2 hne hnc
    obtain ⟨n, hn, hnp, hng⟩ := hex p hp d2 hd2 hne hnc
    obtain ⟨m, hm, hmp, hmg⟩ := hdom2 n hn
    exact ⟨m, hm, hmp.trans hnp, hmg.trans hng⟩
  by_cases h1 : g.getNewPosition current.position dir ∈ closed2
  · rw [stepNeighbor_skip g [] toPos closed2 current acc dir (Or.inl h1)]
    exact ⟨⟨hfv, hgl, hfg, hfi, hex⟩, fun hc => absurd h1 hc⟩
  · have hnbB : inBounds g (g.getNewPosition current.position dir) :=
      getNewPosition_inBounds hcb dir
    have h2 : g.isWalkable (g.getNewPosition current.position dir).x
        (g.getNewPosition current.position dir).y = true := hfree _ hnbB
    have h3 : g.getNewPosition current.position dir ∉ ([] : List Position) := by simp
    have hglnb : manhattan fromPos (g.getNewPosition current.position dir) ≤
        current.g + 1 := by
      have htr := manhattan_triangle fromPos current.position
        (g.getNewPosition current.position dir)
      have hstep := getNewPosition_man_le_one hcb dir
      omega
    rcases h4 : acc.1.findIdx?
        (fun n => n.position == g.getNewPosition current.position dir) with _ | i
    · rw [stepNeighbor_push g [] toPos closed2 current acc dir h1 h2 h3 h4] at hdom ⊢
      have hfound : ∀ n ∈ acc.1, n.position ≠ g.getNewPosition current.position dir := by
        intro n hn hc
        have hfa : (n.position == g.getNewPosition current.position dir) = false :=
          findIdx?_none_all h4 n hn
        rw [hc] at hfa
        simp at hfa
      have hnbnf : g.getNewPosition current.position dir ≠ fromPos := by
        intro hc
        rcases hfi with hin | hin
        · obtain ⟨m, hm, hmp⟩ := List.mem_map.mp hin
          exact hfound m hm (hmp.trans hc.symm)
        · exact h1 (hc ▸ hin)
      refine ⟨⟨?_, ?_, ?_, ?_, hex2 _ hdom⟩, ?_⟩
      · intro n hn
        rcases List.mem_append.mp hn with hn | hn
        · exact hfv n hn
        · rw [List.mem_singleton] at hn
          subst hn
          rfl
      · intro n hn
        rcases List.mem_append.mp hn with hn | hn
        · exact hgl n hn
        · rw [List.mem_singleton] at hn
          subst hn
          exact hglnb
      · intro n hn
        rcases List.mem_append.mp hn with hn | hn
        · exact hfg n hn
        · rw [List.mem_singleton] at hn
          subst hn
          intro hc
          exact absurd hc hnbnf
      · rcases hfi with hin | hin
        · left
          rw [List.map_append]
          exact List.mem_append.mpr (Or.inl hin)
        · right
          exact hin
      · intro _
        refine ⟨pushNode current (g.getNewPosition current.position dir) toPos,
          List.mem_append.mpr (Or.inr (List.mem_singleton.mpr rfl)), rfl, ?_⟩
        show current.g + 1 ≤ manhattan fromPos current.position + 1
        omega
    · rcases h5 : acc.1.get? i with _ | existing
      · exfalso
        have hilen := (findIdx?_some_get h4).1
        rw [List.get?_eq_get hilen] at h5
        exact Option.noConfusion h5
      · obtain ⟨hilen, x, hx, hxp⟩ := findIdx?_some_get h4
        have hxp' : (x.position == g.getNewPosition current.position dir) = true := hxp
        have hpos : existing.position = g.getNewPosition current.position dir := by
          have hxx : x = existing := by
            have h7 := hx.symm.trans h5
            exact Option.some.inj h7
          rw [← hxx]
          exact beq_iff_eq.mp hxp'
        have hexm : existing ∈ acc.1 := List.get?_mem h5
        by_cases h6 : current.g + 1 < existing.g
        · rw [stepNeighbor_update g [] toPos closed2 current acc dir i existing
            h1 h2 h3 h4 h5 h6] at hdom ⊢
          have hupd : updNode existing current (g.getNewPosition current.position dir) toPos
              ∈ acc.1.set i
                (updNode existing current (g.getNewPosition current.position dir) toPos) :=
            mem_set_self _ i _ hilen
          refine ⟨⟨?_, ?_, ?_, ?_, hex2 _ hdom⟩, ?_⟩
          · intro n hn
            rcases mem_set_cases hn with hn | ⟨j, hj, hget⟩
            · subst hn
              show current.g + 1 + manhattan (g.getNewPosition current.position dir) toPos =
                current.g + 1 + manhattan existing.position toPos
              rw [hpos]
            · exact hfv n (List.get?_mem hget)
          · intro n hn
            rcases mem_set_cases hn with hn | ⟨j, hj, hget⟩
            · subst hn
              show manhattan fromPos existing.position ≤ current.g + 1
              rw [hpos]
              exact hglnb
            · exact hgl n (List.get?_mem hget)
          · intro n hn
            rcases mem_set_cases hn with hn | ⟨j, hj, hget⟩
            · subst hn
              intro hc
              have h0 := hfg existing hexm hc
              show current.g + 1 = 0
              omega
            · exact hfg n (List.get?_mem hget)
          · rcases hfi with hin | hin
            · left
              rw [map_set_same ANode.position acc.1 i
                (updNode existing current (g.getNewPosition current.position dir) toPos)
                existing h5 rfl]
              exact hin
            · right
              exact hin
          · intro _
            refine ⟨updNode existing current (g.getNewPosition current.position dir) toPos,
              hupd, hpos, ?_⟩
            show current.g + 1 ≤ manhattan fromPos current.position + 1
            omega
        · rw [stepNeighbor_keep g [] toPos closed2 current acc dir i existing
            h1 h2 h3 h4 h5 h6]
          refine ⟨⟨hfv, hgl, hfg, hfi, hex⟩, ?_⟩
          intro _
          refine ⟨existing, hexm, hpos, ?_⟩
          omega

/-! ### Free-grid invariant across one iteration -/

theorem foldl_freeAcc {g : GameMap} {fromPos toPos : Position} {current : ANode}
    {closed closed2 : List Position}
    (hfree : ∀ p, inBounds g p → g.isWalkable p.x p.y = true)
    (hcb : inBounds g current.position)
    (hcg : current.g = manhattan fromPos current.position) :
    ∀ (dirs : List Direction) (acc : List ANode × List (Position × Position)),
      FreeAcc g fromPos toPos closed closed2 acc.1 →
      FreeAcc g fromPos toPos closed closed2
        (dirs.foldl (stepNeighbor g [] toPos closed2 current) acc).1 ∧
      OpenDom acc.1 (dirs.foldl (stepNeighbor g [] toPos closed2 current) acc).1 ∧
      (∀ d ∈ dirs, g.getNewPosition current.position d ∉ closed2 →
        ∃ n ∈ (dirs.foldl (stepNeighbor g [] toPos closed2 current) acc).1,
          n.position = g.getNewPosition current.position d ∧
          n.g ≤ manhattan fromPos current.position + 1)
  | [], acc, h => ⟨h, openDom_refl _, by intro d hd; simp at hd⟩
  | d :: rest, acc, h => by
    rw [List.foldl_cons]
    obtain ⟨hF1, hclause⟩ := stepNeighbor_freeAcc hfree hcb hcg h
    obtain ⟨hFrest, hdomrest, hclauses⟩ :=
      foldl_freeAcc hfree hcb hcg rest (stepNeighbor g [] toPos closed2 current acc d) hF1
    have hdomstep := stepNeighbor_openDom g [] toPos closed2 current acc d
    refine ⟨hFrest, openDom_trans hdomstep hdomrest, ?_⟩
    intro d2 hd2 hnc
    rcases List.mem_cons.mp hd2 with rfl | hd2
    · obtain ⟨n, hn, hnp, hng⟩ := hclause hnc
      obtain ⟨m, hm, hmp, hmg⟩ := hdomrest n hn
      exact ⟨m, hm, hmp.trans hnp, hmg.trans hng⟩
    · exact hclauses d2 hd2 hnc

theorem iter_freeInv {g : GameMap} {fromPos toPos : Position}
    {openSet : List ANode} {closed : List Position} {came : List (Position × Position)}
    {current : ANode} {rest : List ANode}
    (hfree : ∀ p, inBounds g p → g.isWalkable p.x p.y = true)
    (hF : FreeInv g fromPos toPos openSet closed)
    (hsort : sortByF openSet = current :: rest)
    (hcb : inBounds g current.position)
    (hcg : current.g = manhattan fromPos current.position) :
    FreeInv g fromPos toPos
      (expandNeighbors g [] toPos (current.position :: closed) current rest came).1
      (current.position :: closed) := by
  have hperm : (current :: rest).Perm openSet := by
    rw [← hsort]
    exact sortByF_perm openSet
  have hrest : ∀ n ∈ rest, n ∈ openSet :=
    fun n hn => hperm.mem_iff.mp (List.mem_cons_of_mem _ hn)
  have hinit : FreeAcc g fromPos toPos closed (current.position :: closed) rest := by
    refine ⟨fun n hn => hF.fVal n (hrest n hn), fun n hn => hF.gLower n (hrest n hn),
      fun n hn => hF.fromG n (hrest n hn), ?_, ?_⟩
    · rcases hF.fromIn with hin | hin
      · have hin2 : fromPos ∈ (current :: rest).map ANode.position :=
          ((hperm.map ANode.position).mem_iff).mpr hin
        rcases List.mem_cons.mp hin2 with hc | hc
        · right
          rw [hc]
          exact List.mem_cons_self _ _
        · left
          exact hc
      · right
        exact List.mem_cons_of_mem _ hin
    · intro p hp d hd hne hnc
      have hnc' : g.getNewPosition p d ∉ closed := fun hc => hnc (List.mem_cons_of_mem _ hc)
      obtain ⟨n, hn, hnp, hng⟩ := hF.expanded p hp d hd hne hnc'
      have hncur : n ≠ current := fun hc =>
        hnc (by rw [← hnp, hc]; exact List.mem_cons_self _ _)
      have hnrest : n ∈ rest := by
        have hmem : n ∈ current :: rest := hperm.mem_iff.mpr hn
        rcases List.mem_cons.mp hmem with hc | hc
        · exact absurd hc hncur
        · exact hc
      exact ⟨n, hnrest, hnp, hng⟩
  obtain ⟨hFacc, _, hclauses⟩ := foldl_freeAcc hfree hcb hcg allDirections (rest, came) hinit
  obtain ⟨hfv, hgl, hfg, hfi, hex⟩ := hFacc
  refine ⟨hfv, hgl, hfg, hfi, ?_⟩
  intro p hp d hd hne hnc
  rcases List.mem_cons.mp hp with hp | hp
  · subst hp
    exact hclauses d hd hnc
  · exact hex p hp d hd hne hnc

/-! ### Reachability, pop optimality and the free-grid loop -/

theorem L_reach {g : GameMap} {fromPos toPos : Position} {openSet : List ANode}
    {closed : List Position}
    (hF : FreeInv g fromPos toPos openSet closed)
    (hfb : inBounds g fromPos) :
    ∀ (d : Nat) (z : Position), manhattan fromPos z = d → inBounds g z → z ∉ closed →
      ∃ n ∈ openSet, n.g + manhattan n.position z ≤ manhattan fromPos z := by
  intro d
  induction d using Nat.strong_induction_on with
  | _ d IH =>
    intro z hd hzb hznc
    by_cases hz : z = fromPos
    · subst hz
      rcases hF.fromIn with hin | hin
      · obtain ⟨n, hn, hpos⟩ := List.mem_map.mp hin
        refine ⟨n, hn, ?_⟩
        have h0 : n.g = 0 := hF.fromG n hn hpos
        rw [hpos, manhattan_self, h0]
      · exact absurd hin hznc
    · obtain ⟨y, dir, hdir, hyb, hman, hstep, hzy⟩ := step_toward g fromPos z hfb hzb hz
      by_cases hyc : y ∈ closed
      · obtain ⟨n, hn, hnp, hng⟩ := hF.expanded y hyc dir hdir
          (by rw [hstep]; exact hzy) (by rw [hstep]; exact hznc)
        refine ⟨n, hn, ?_⟩
        have hle : n.g ≤ manhattan fromPos z := by
          rw [← hman]
          exact hng
        rw [hnp, hstep, manhattan_self]
        omega
      · have hdy : manhattan fromPos y < d := by omega
        obtain ⟨n, hn, hle⟩ := IH (manhattan fromPos y) hdy y rfl hyb hyc
        refine ⟨n, hn, ?_⟩
        have htr : manhattan n.position z ≤ manhattan n.position y + manhattan y z :=
          manhattan_triangle _ _ _
        have h1 : manhattan y z = 1 := by
          rw [← hstep]
          exact adjStep_man_one hyb ⟨by rw [hstep]; exact hzy, dir, hdir, rfl⟩
        omega

theorem pop_g_eq {g : GameMap} {fromPos toPos : Position} {openSet : List ANode}
    {closed : List Position} {came : List (Position × Position)}
    {current : ANode} {rest : List ANode}
    (hG : GInv g [] fromPos openSet closed came)
    (hF : FreeInv g fromPos toPos openSet closed)
    (hfb : inBounds g fromPos)
    (hsort : sortByF openSet = current :: rest)
    (hcb : inBounds g current.position) :
    current.g = manhattan fromPos current.position := by
  have hperm : (current :: rest).Perm openSet := by
    rw [← hsort]
    exact sortByF_perm openSet
  have hcur : current ∈ openSet := hperm.mem_iff.mp (List.mem_cons_self _ _)
  have hlow := hF.gLower current hcur
  have hnc : current.position ∉ closed := hG.openNotClosed current hcur
  obtain ⟨n, hn, hle⟩ :=
    L_reach hF hfb (manhattan fromPos current.position) current.position rfl hcb hnc
  have hmin := sortByF_head_min hsort n hn
  have hfc := hF.fVal current hcur
  have hfn := hF.fVal n hn
  have htr : manhattan n.position toPos ≤
      manhattan n.position current.position + manhattan current.position toPos :=
    manhattan_triangle _ _ _
  omega

theorem astarLoop_free (g : GameMap) (fromPos toPos : Position)
    (hfree : ∀ p, inBounds g p → g.isWalkable p.x p.y = true)
    (hfb : inBounds g fromPos) (htb : inBounds g toPos) :
    ∀ (fuel : Nat) (openSet : List ANode) (closed : List Position)
      (came : List (Position × Position)),
      GInv g [] fromPos openSet closed came →
      FreeInv g fromPos toPos openSet closed →
      toPos ∉ closed →
      g.width.toNat * g.height.toNat + 1 ≤ closed.length + fuel →
      (astarLoop g [] toPos fuel openSet closed came).head? = some fromPos ∧
      (astarLoop g [] toPos fuel openSet closed came).getLast? = some toPos ∧
      (astarLoop g [] toPos fuel openSet closed came).length =
        manhattan fromPos toPos + 1 := by
  intro fuel
  induction fuel with
  | zero =>
    intro openSet closed came hG _ _ hfuel
    exfalso
    have hb : ∀ p ∈ closed, inBounds g p := by
      intro p hp
      rcases hG.closedScope p hp with h | h
      · rw [h]
        exact hfb
      · exact isWalkable_inBounds h.1
    have := inBounds_nodup_length_le g closed hG.nodupClosed hb
    omega
  | succ n IH =>
    intro openSet closed came hG hF htnc hfuel
    rcases hsort : sortByF openSet with _ | ⟨current, rest⟩
    · exfalso
      obtain ⟨m, hm, _⟩ := L_reach hF hfb (manhattan fromPos toPos) toPos rfl htb htnc
      have hm2 : m ∈ sortByF openSet := (sortByF_perm openSet).mem_iff.mpr hm
      rw [hsort] at hm2
      simp at hm2
    · have hperm : (current :: rest).Perm openSet := by
        rw [← hsort]
        exact sortByF_perm openSet
      have hcur : current ∈ openSet := hperm.mem_iff.mp (List.mem_cons_self _ _)
      have hcb : inBounds g current.position := by
        rcases hG.openScope current hcur with h | h
        · rw [h]
          exact hfb
        · exact isWalkable_inBounds h.1
      have hcg : current.g = manhattan fromPos current.position :=
        pop_g_eq hG hF hfb hsort hcb
      simp only [astarLoop, hsort]
      by_cases hq : (current.position == toPos) = true
      · rw [if_pos hq]
        have heq : current.position = toPos := beq_iff_eq.mp hq
        obtain ⟨l, hl1, hl2, hl3, _, _, hl6, _⟩ := hG.chains current hcur
        have hrec : reconstructPath came (came.length + 1) current.position = l :=
          reconstruct_eq_chain hl1 _ (by have := chains_length_le hl1 hl6; omega)
        rw [hrec]
        refine ⟨hl2, by rw [chains_getLast hl1, heq], ?_⟩
        rw [hl3, hcg, heq]
      · rw [if_neg hq]
        have hnet : current.position ≠ toPos := fun hc => hq (beq_iff_eq.mpr hc)
        refine IH _ _ _ (expandNeighbors_stepInv (iter_stepInv hG hsort)).1
          (iter_freeInv hfree hF hsort hcb hcg) ?_ ?_
        · intro hc
          rcases List.mem_cons.mp hc with hc | hc
          · exact hnet hc.symm
          · exact htnc hc
        · simp only [List.length_cons]
          omega

/-! ### `findPath` end-to-end results (C6) -/

theorem initial_GInv (g : GameMap) (occupied : List Position) (fromPos toPos : Position) :
    GInv g occupied fromPos
      [{ position := fromPos, g := 0, f := manhattan fromPos toPos, parent := none }]
      [] [] := by
  refine ⟨?_, ?_, ?_, ?_, ?_, ?_, ?_⟩
  · simp
  · intro n hn
    simp only [List.mem_singleton] at hn
    subst hn
    simp
  · simp
  · intro p hp
    simp at hp
  · intro n hn
    simp only [List.mem_singleton] at hn
    subst hn
    exact Or.inl rfl
  · simp
  · intro n hn
    simp only [List.mem_singleton] at hn
    subst hn
    refine ⟨[fromPos], Chains.base _ rfl, rfl, rfl, List.chain'_singleton _, ?_, ?_, ?_⟩
    · intro p hp
      simp at hp
    · simp
    · intro p hp
      simp at hp

theorem initial_FreeInv (g : GameMap) (fromPos toPos : Position) :
    FreeInv g fromPos toPos
      [{ position := fromPos, g := 0, f := manhattan fromPos toPos, parent := none }]
      [] := by
  refine ⟨?_, ?_, ?_, ?_, ?_⟩
  · intro n hn
    simp only [List.mem_singleton] at hn
    subst hn
    simp
  · intro n hn
    simp only [List.mem_singleton] at hn
    subst hn
    simp [manhattan_self]
  · intro n hn
    simp only [List.mem_singleton] at hn
    subst hn
    intro _
    rfl
  · left
    simp
  · intro p hp
    simp at hp

theorem findPath_free (g : GameMap) (fromPos toPos : Position)
    (hfree : ∀ p, inBounds g p → g.isWalkable p.x p.y = true)
    (hfb : inBounds g fromPos) (htb : inBounds g toPos) :
    (g.findPath fromPos toPos []).head? = some fromPos ∧
    (g.findPath fromPos toPos []).getLast? = some toPos ∧
    (g.findPath fromPos toPos []).length = manhattan fromPos toPos + 1 := by
  unfold GameMap.findPath
  exact astarLoop_free g fromPos toPos hfree hfb htb
    (g.width.toNat * g.height.toNat + 2)
    [{ position := fromPos, g := 0, f := manhattan fromPos toPos, parent := none }] [] []
    (initial_GInv g [] fromPos toPos) (initial_FreeInv g fromPos toPos)
    (by simp) (by omega)

theorem g3_no_path :
    ¬ ∃ l, isFullPath (GameMap.ofMapData ⟨3, 1, [["grass", "wall", "grass"]], []⟩) []
      ⟨0, 0⟩ ⟨2, 0⟩ l := by
  rintro ⟨l, hh, hl, hch, hall⟩
  rcases l with _ | ⟨a, t⟩
  · simp at hh
  · simp only [List.head?_cons, Option.some.injEq] at hh
    subst hh
    rcases t with _ | ⟨b, t2⟩
    · have hcon : (⟨0, 0⟩ : Position) = ⟨2, 0⟩ := by simpa using hl
      exact absurd hcon (by decide)
    · have hstep : manhattan ⟨0, 0⟩ b = 1 := (List.chain'_cons.mp hch).1
      have hbw := (hall b (List.mem_cons_of_mem _ (List.mem_cons_self _ _))).1
      have hbB := isWalkable_inBounds hbw
      have hbx : b = (⟨1, 0⟩ : Position) := by
        obtain ⟨h1, h2, h3, h4⟩ := hbB
        have h2' : b.x < 3 := h2
        have h4' : b.y < 1 := h4
        have hm : (0 - b.x).natAbs + (0 - b.y).natAbs = 1 := hstep
        have hx1 : b.x = 1 := by omega
        have hy0 : b.y = 0 := by omega
        exact pos_ext hx1 hy0
      rw [hbx] at hbw
      exact absurd hbw (by decide)

/-- C6 (amended): on a grid whose cells are all walkable and with an empty
occupied set, `findPath` returns a sequence that begins at `from`, ends at
`to` and has length `manhattan from to + 1`; and on any grid and occupied
set, when the start cell is walkable and unoccupied and no 4-directional
walkable, unoccupied path joins `from` to `to`, `findPath` returns the
empty sequence.  (The unamended second part, with no condition on the start
cell, is refuted by `findPath_unwalkable_start_counterexample`.) -/
theorem findPath_correct :
    (∀ (g : GameMap) (fromPos toPos : Position),
      (∀ p, inBounds g p → g.isWalkable p.x p.y = true) →
      inBounds g fromPos → inBounds g toPos →
      (g.findPath fromPos toPos []).head? = some fromPos ∧
      (g.findPath fromPos toPos []).getLast? = some toPos ∧
      (g.findPath fromPos toPos []).length = manhattan fromPos toPos + 1) ∧
    (∀ (g : GameMap) (occupied : List Position) (fromPos toPos : Position),
      FreeCell g occupied fromPos →
      (¬ ∃ l, isFullPath g occupied fromPos toPos l) →
      g.findPath fromPos toPos occupied = []) :=
  ⟨fun g fromPos toPos hfree hfb htb => findPath_free g fromPos toPos hfree hfb htb,
   fun g occupied fromPos toPos hfc hnp =>
    findPath_unreachable g occupied fromPos toPos hfc hnp⟩

/-- C6 counterexample to the unamended claim: on a 2×1 grid whose start
cell is a wall, no 4-directional walkable unoccupied path joins the two
cells (no walkable path at all goes through the start), yet `findPath`
returns a non-empty sequence, because the code never checks the start cell
for walkability. -/
theorem findPath_unwalkable_start_counterexample :
    (GameMap.ofMapData ⟨2, 1, [["wall", "grass"]], []⟩).findPath ⟨0, 0⟩ ⟨1, 0⟩ [] =
      [⟨0, 0⟩, ⟨1, 0⟩] ∧
    ¬ ∃ l, isFullPath (GameMap.ofMapData ⟨2, 1, [["wall", "grass"]], []⟩) []
      ⟨0, 0⟩ ⟨1, 0⟩ l := by
  constructor
  · decide
  · rintro ⟨l, hh, _, _, hall⟩
    have hmem : (⟨0, 0⟩ : Position) ∈ l := by
      rcases l with _ | ⟨a, t⟩
      · simp at hh
      · simp only [List.head?_cons, Option.some.injEq] at hh
        rw [← hh]
        exact List.mem_cons_self _ _
    have hw := (hall _ hmem).1
    exact absurd hw (by decide)

/-- C6 witness: the two parts of `findPath_correct` evaluated on a concrete
5×5 empty grid and on a concrete 3×1 grid with a wall between the
endpoints. -/
theorem findPath_correct_witness :
    ((GameMap.createEmpty 5 5).findPath ⟨0, 0⟩ ⟨3, 2⟩ []).head? = some ⟨0, 0⟩ ∧
    ((GameMap.createEmpty 5 5).findPath ⟨0, 0⟩ ⟨3, 2⟩ []).getLast? = some ⟨3, 2⟩ ∧
    ((GameMap.createEmpty 5 5).findPath ⟨0, 0⟩ ⟨3, 2⟩ []).length =
      manhattan ⟨0, 0⟩ ⟨3, 2⟩ + 1 ∧
    (GameMap.ofMapData ⟨3, 1, [["grass", "wall", "grass"]], []⟩).findPath
      ⟨0, 0⟩ ⟨2, 0⟩ [] = [] := by
  obtain ⟨h1, h2, h3⟩ := findPath_correct.1 (GameMap.createEmpty 5 5) ⟨0, 0⟩ ⟨3, 2⟩
    (fun p hp => createEmpty_walkable 5 5 p hp)
    ⟨by decide, by decide, by decide, by decide⟩
    ⟨by decide, by decide, by decide, by decide⟩
  have h4 := findPath_correct.2 (GameMap.ofMapData ⟨3, 1, [["grass", "wall", "grass"]], []⟩)
    [] ⟨0, 0⟩ ⟨2, 0⟩ ⟨by decide, by decide⟩ g3_no_path
  exact ⟨h1, h2, h3, h4⟩

end WorldSim
